import Mathlib

/-!
# Verification of the content-addressed file identification core

Shallow embedding of the hashing / duplicate-finding subsystem of the
repository (`src/file_hasher.py` and `src/duplicate_finder.py`), together
with proofs and refutations of the frozen specification claims.

Modelling conventions:
* machine bytes are `Nat` values (`% 256` / `% 2^32` applied where the
  source masks);
* a file's byte stream is the list of chunks successively returned by
  `f.read(chunk_size)`; a chunk sequence is determined by the file content
  and the fixed chunk size, so two reads of the same unchanged file yield
  the same chunk list;
* fallible Python code is embedded in `Except PyErr`; an exception that a
  `try/except` catches is handled at the corresponding `match`;
* the cryptographic hash objects of `hashlib` are modelled by the byte
  sequence absorbed so far; the hex digest is an uninterpreted parameter
  `hexd : String → List Nat → String` (digest of absorbed bytes for a
  given algorithm name).  `crc32` is implemented concretely with the
  zlib/IEEE polynomial, as in the source's `zlib.crc32`.
-/

/-- Python exceptions that the embedded code can raise. -/
inductive PyErr : Type where
  | valueError (msg : String)
  | ioError (msg : String)
  | typeError (msg : String)
  | indexError (msg : String)
  deriving Repr, DecidableEq

/-- One chunk returned by `f.read(chunk_size)`: a list of bytes. -/
abbrev Chunk := List Nat

/-- Outcome of opening and reading a file: the chunks that were
successfully read, and `err = some msg` if the open or a read fails
(after the listed chunks were delivered).  `err = none` is a clean
end-of-file. -/
structure FileRead where
  chunks : List Chunk
  err : Option String
  deriving Repr, DecidableEq

/-- Digest function for the `hashlib` algorithms: maps an algorithm name
and the full absorbed byte sequence to the hex digest string
(`hash_obj.hexdigest()` after `update`ing exactly those bytes). -/
abbrev HexFn := String → List Nat → String

/-- `FileHasher.SUPPORTED_ALGORITHMS` (`src/file_hasher.py` lines 11-18):
the keys of the name → `hashlib` constructor dict. `crc32` is special-cased
in the code and is not a key of this dict. -/
def SUPPORTED_ALGORITHMS : List String :=
  ["md5", "sha1", "sha256", "sha512", "blake2b", "blake2s"]

/-- An algorithm identifier the digest engine accepts: a
`SUPPORTED_ALGORITHMS` key or the special-cased `"crc32"`. -/
def supportedOrCrc (a : String) : Prop :=
  a ∈ SUPPORTED_ALGORITHMS ∨ a = "crc32"

instance : DecidablePred supportedOrCrc := fun _ => by
  unfold supportedOrCrc; infer_instance

/-! ## crc32 (zlib semantics, IEEE polynomial, bitwise form) -/

/-- One shift round of the reflected CRC-32 computation. -/
def crc32Round (c : Nat) : Nat :=
  if c % 2 = 1 then (c / 2) ^^^ 0xEDB88320 else c / 2

/-- Absorb one byte into the (pre-complemented) CRC register. -/
def crc32UpdateByte (c b : Nat) : Nat :=
  crc32Round^[8] (c ^^^ (b % 256))

/-- `zlib.crc32(data, value)`: complement, absorb the bytes, complement. -/
def zlibCrc32 (data : Chunk) (value : Nat) : Nat :=
  (data.foldl crc32UpdateByte ((value % 2 ^ 32) ^^^ 0xFFFFFFFF)) ^^^ 0xFFFFFFFF

/-! ## Hex formatting (`f"{n:08x}"`) -/

/-- Python's `f"{n:08x}"`: lowercase hex digits of `n`, left-padded with
`'0'` to at least eight characters.  `Nat.toDigits 16` produces exactly
the lowercase hex digit characters, most significant first. -/
def hex8 (n : Nat) : String :=
  let ds := Nat.toDigits 16 n
  String.mk (List.replicate (8 - ds.length) '0' ++ ds)

/-! ## Digest engine (`FileHasher`, `src/file_hasher.py`) -/

/-- `FileHasher._calculate_crc32` (lines 34-39): fold `zlib.crc32` over the
chunks starting from 0 and format the result; an open/read failure raises
`IOError` before `return`, so the partial register is discarded. -/
def _calculate_crc32 (file : FileRead) : Except PyErr String :=
  match file.err with
  | some m => .error (.ioError m)
  | none =>
    .ok (hex8 ((file.chunks.foldl (fun crc chunk => zlibCrc32 chunk crc) 0) % 2 ^ 32))

/-- `FileHasher._calculate_cryptographic_hash` (lines 40-45): absorb every
chunk into the hash object and return its hex digest; an open/read failure
raises `IOError` before `hexdigest` is called, so the partially absorbed
state is discarded. -/
def _calculate_cryptographic_hash (hexd : HexFn) (file : FileRead) (algorithm : String) :
    Except PyErr String :=
  match file.err with
  | some m => .error (.ioError m)
  | none => .ok (hexd algorithm (file.chunks.foldl (fun acc chunk => acc ++ chunk) []))

/-- `FileHasher.calculate_hash` (lines 23-33): reject unsupported
identifiers with `ValueError` before touching the file, dispatch to the
crc32 or cryptographic helper, and catch `(IOError, OSError)` by printing
and returning `None`. -/
def calculate_hash (hexd : HexFn) (file : FileRead) (algorithm : String) :
    Except PyErr (Option String) :=
  if algorithm ∉ SUPPORTED_ALGORITHMS ∧ algorithm ≠ "crc32" then
    .error (.valueError ("Unsupported algorithm: " ++ algorithm))
  else
    match (if algorithm = "crc32" then _calculate_crc32 file
           else _calculate_cryptographic_hash hexd file algorithm) with
    | .ok h => .ok (some h)
    | .error (.ioError _) => .ok none   -- `except (IOError, OSError)`: print and return None
    | .error e => .error e

/-- State of one entry of the `hash_objects` dict in
`calculate_multiple_hashes`: the crc32 entry holds the integer register,
every other entry holds a `hashlib` object (modelled by its absorbed
bytes). -/
inductive HState : Type where
  | crc (v : Nat)
  | crypto (absorbed : List Nat)
  deriving Repr, DecidableEq

/-- Python `dict` assignment `d[k] = v` on an association list whose keys
are unique: replace the value in place if the key is present, append the
pair otherwise. -/
def pyDictSet : List (String × α) → String → α → List (String × α)
  | [], k, v => [(k, v)]
  | p :: ps, k, v => if p.1 = k then (k, v) :: ps else p :: pyDictSet ps k v

/-- `d.get(k)` / `d[k]` lookup on an association list. -/
def lookupD (d : List (String × α)) (k : String) : Option α :=
  (d.find? (fun p => p.1 == k)).map (·.2)

/-- Lines 47-54 of `calculate_multiple_hashes`: build the `hash_objects`
dict, raising `ValueError` at the first identifier that is neither
`'crc32'` nor a `SUPPORTED_ALGORITHMS` key.  This happens before the file
is opened. -/
def initStep (d : List (String × HState)) (algo : String) : Except PyErr (List (String × HState)) :=
  if algo = "crc32" then .ok (pyDictSet d algo (.crc 0))
  else if algo ∈ SUPPORTED_ALGORITHMS then .ok (pyDictSet d algo (.crypto []))
  else .error (.valueError ("Unsupported algorithm: " ++ algo))

def initHashObjects (algorithms : List String) : Except PyErr (List (String × HState)) :=
  algorithms.foldlM initStep []

/-- Lines 58-62: feed one chunk to every entry of the dict.  The branch on
the key mirrors `if algo == 'crc32'`; the cross cases (a crc value under a
non-crc32 key or vice versa) are unreachable because `initHashObjects`
stores `.crc` exactly at key `"crc32"`. -/
def updateEntry (chunk : Chunk) (p : String × HState) : String × HState :=
  if p.1 = "crc32" then
    match p.2 with
    | .crc v => (p.1, .crc (zlibCrc32 chunk v))
    | .crypto l => (p.1, .crypto l)
  else
    match p.2 with
    | .crypto l => (p.1, .crypto (l ++ chunk))
    | .crc v => (p.1, .crc v)

/-- The chunk-reading loop of lines 56-62: all requested algorithms are
updated from the same chunk sequence of a single read pass. -/
def feedChunks (chunks : List Chunk) (d : List (String × HState)) : List (String × HState) :=
  chunks.foldl (fun d chunk => d.map (updateEntry chunk)) d

/-- Lines 63-68: produce the final digest string of one dict entry. -/
def finalizeEntry (hexd : HexFn) (p : String × HState) : String × String :=
  if p.1 = "crc32" then
    (p.1, match p.2 with
          | .crc v => hex8 (v % 2 ^ 32)
          | .crypto l => hexd p.1 l)
  else
    (p.1, match p.2 with
          | .crypto l => hexd p.1 l
          | .crc v => hex8 (v % 2 ^ 32))

/-- `FileHasher.calculate_multiple_hashes` (lines 46-72): build the dict of
hash objects (raising `ValueError` on an unsupported identifier before the
file is opened), then read the file once, updating every object from each
chunk; `(IOError, OSError)` during the read pass is caught and an empty
dict is returned, discarding the partial states. -/
def calculate_multiple_hashes (hexd : HexFn) (file : FileRead) (algorithms : List String) :
    Except PyErr (List (String × String)) := do
  let d ← initHashObjects algorithms
  match file.err with
  | some _ => return []            -- `except (IOError, OSError)`: print and return {}
  | none => return (feedChunks file.chunks d).map (finalizeEntry hexd)

/-! ## Association-list lemmas for the Python dict model -/

theorem lookupD_cons (p : String × α) (ps : List (String × α)) (k : String) :
    lookupD (p :: ps) k = if p.1 = k then some p.2 else lookupD ps k := by
  by_cases h : p.1 = k <;> simp [lookupD, List.find?_cons, h]

theorem lookupD_pyDictSet (d : List (String × α)) (k k' : String) (v : α) :
    lookupD (pyDictSet d k v) k' = if k' = k then some v else lookupD d k' := by
  induction d with
  | nil =>
    rw [pyDictSet, lookupD_cons]
    by_cases h : k' = k
    · simp [h]
    · have h1 : ¬ (k = k') := fun hh => h hh.symm
      simp [h, h1]
  | cons p ps ih =>
    by_cases hpk : p.1 = k
    · rw [pyDictSet, if_pos hpk, lookupD_cons, lookupD_cons]
      by_cases h : k' = k
      · simp [h]
      · have h1 : ¬ (k = k') := fun hh => h hh.symm
        have h2 : ¬ (p.1 = k') := fun hh => h1 (hpk.symm.trans hh)
        simp [h, h1, h2]
    · rw [pyDictSet, if_neg hpk, lookupD_cons, ih, lookupD_cons]
      by_cases h : k' = k
      · subst h
        simp [hpk]
      · simp [h]

theorem keys_pyDictSet (d : List (String × α)) (k : String) (v : α) :
    (pyDictSet d k v).map Prod.fst =
      if k ∈ d.map Prod.fst then d.map Prod.fst else d.map Prod.fst ++ [k] := by
  induction d with
  | nil => simp [pyDictSet]
  | cons p ps ih =>
    by_cases hpk : p.1 = k
    · simp [pyDictSet, hpk]
    · have hkp : ¬ (k = p.1) := fun hh => hpk hh.symm
      simp only [pyDictSet, if_neg hpk, List.map_cons, ih, List.mem_cons]
      by_cases hk : k ∈ ps.map Prod.fst <;> simp [hk, hkp]

theorem mem_keys_pyDictSet {a k : String} (d : List (String × α)) (v : α) :
    a ∈ (pyDictSet d k v).map Prod.fst ↔ a = k ∨ a ∈ d.map Prod.fst := by
  rw [keys_pyDictSet]
  by_cases hk : k ∈ d.map Prod.fst
  · simp only [if_pos hk]
    constructor
    · exact .inr
    · rintro (rfl | h)
      · exact hk
      · exact h
  · simp [if_neg hk, List.mem_append, or_comm]

theorem nodup_keys_pyDictSet {d : List (String × α)} (hd : (d.map Prod.fst).Nodup)
    (k : String) (v : α) : ((pyDictSet d k v).map Prod.fst).Nodup := by
  rw [keys_pyDictSet]
  by_cases hk : k ∈ d.map Prod.fst
  · simpa [hk] using hd
  · simp [hk, List.nodup_append, hd]

/-- The hash-object state created for one algorithm name (lines 49-52). -/
def initState (a : String) : HState :=
  if a = "crc32" then .crc 0 else .crypto []

/-- The pure dict produced by lines 47-54 when every identifier is accepted. -/
def initFold (algorithms : List String) (d : List (String × HState)) :
    List (String × HState) :=
  algorithms.foldl (fun d a => pyDictSet d a (initState a)) d

theorem initStep_ok {a : String} (h : supportedOrCrc a) (d : List (String × HState)) :
    initStep d a = .ok (pyDictSet d a (initState a)) := by
  rcases h with h | h
  · have hne : ¬ (a = "crc32") := by
      rintro rfl
      revert h
      decide
    simp [initStep, initState, hne, h]
  · subst h
    simp [initStep, initState]

theorem foldlM_initStep_ok :
    ∀ (algorithms : List String) (d : List (String × HState)),
    (∀ a ∈ algorithms, supportedOrCrc a) →
    List.foldlM initStep d algorithms = .ok (initFold algorithms d) := by
  intro algos
  induction algos with
  | nil => intro d _; rfl
  | cons a rest ih =>
    intro d h
    rw [List.foldlM_cons, initStep_ok (h a (by simp))]
    show List.foldlM initStep (pyDictSet d a (initState a)) rest = _
    rw [ih _ (fun b hb => h b (List.mem_cons_of_mem _ hb))]
    rfl

theorem foldlM_initStep_err :
    ∀ (algorithms : List String) (d : List (String × HState)),
    (∃ a ∈ algorithms, ¬ supportedOrCrc a) →
    ∃ b, ¬ supportedOrCrc b ∧
      List.foldlM initStep d algorithms =
        .error (.valueError ("Unsupported algorithm: " ++ b)) := by
  intro algos
  induction algos with
  | nil =>
    rintro d ⟨a, ha, _⟩
    cases ha
  | cons a rest ih =>
    rintro d ⟨x, hx, hxs⟩
    by_cases hsup : supportedOrCrc a
    · rw [List.foldlM_cons, initStep_ok hsup]
      have hmem : ∃ y ∈ rest, ¬ supportedOrCrc y := by
        rcases List.mem_cons.mp hx with rfl | hx2
        · exact absurd hsup hxs
        · exact ⟨x, hx2, hxs⟩
      obtain ⟨b, hb, hfold⟩ := ih (pyDictSet d a (initState a)) hmem
      exact ⟨b, hb, hfold⟩
    · refine ⟨a, hsup, ?_⟩
      have h1 : ¬ (a = "crc32") := fun hh => hsup (.inr hh)
      have h2 : a ∉ SUPPORTED_ALGORITHMS := fun hh => hsup (.inl hh)
      rw [List.foldlM_cons]
      show initStep d a >>= _ = _
      rw [initStep, if_neg h1, if_neg h2]
      rfl

theorem lookupD_initFold :
    ∀ (algorithms : List String) (d : List (String × HState)) (a : String),
    lookupD (initFold algorithms d) a =
      if a ∈ algorithms then some (initState a) else lookupD d a := by
  intro algos
  induction algos with
  | nil => intro d a; simp [initFold]
  | cons x rest ih =>
    intro d a
    simp only [initFold, List.foldl_cons]
    rw [show rest.foldl (fun d a => pyDictSet d a (initState a))
          (pyDictSet d x (initState x)) = initFold rest (pyDictSet d x (initState x)) from rfl,
        ih]
    by_cases ha : a ∈ rest
    · simp [ha, List.mem_cons]
    · rw [lookupD_pyDictSet]
      by_cases hax : a = x
      · simp [ha, hax]
      · simp [ha, hax, List.mem_cons]

theorem mem_keys_initFold :
    ∀ (algorithms : List String) (d : List (String × HState)) (a : String),
    a ∈ (initFold algorithms d).map Prod.fst ↔ a ∈ algorithms ∨ a ∈ d.map Prod.fst := by
  intro algos
  induction algos with
  | nil => intro d a; simp [initFold]
  | cons x rest ih =>
    intro d a
    simp only [initFold, List.foldl_cons]
    rw [show rest.foldl (fun d a => pyDictSet d a (initState a))
          (pyDictSet d x (initState x)) = initFold rest (pyDictSet d x (initState x)) from rfl,
        ih, mem_keys_pyDictSet]
    simp [List.mem_cons]
    tauto

theorem nodup_keys_initFold :
    ∀ (algorithms : List String) (d : List (String × HState)),
    (d.map Prod.fst).Nodup → ((initFold algorithms d).map Prod.fst).Nodup := by
  intro algos
  induction algos with
  | nil => intro d h; exact h
  | cons x rest ih =>
    intro d h
    simp only [initFold, List.foldl_cons]
    exact ih (pyDictSet d x (initState x)) (nodup_keys_pyDictSet h x (initState x))

/-! ## Lookup through key-preserving maps (the chunk loop and finalization) -/

theorem lookupD_map_keyfix {β γ : Type} (f : String × β → String × γ)
    (hf : ∀ p, (f p).1 = p.1) :
    ∀ (d : List (String × β)) (a : String),
    lookupD (d.map f) a = (lookupD d a).map (fun st => (f (a, st)).2) := by
  intro d a
  induction d with
  | nil => rfl
  | cons p ps ih =>
    rcases p with ⟨k, st⟩
    rw [List.map_cons, lookupD_cons, lookupD_cons, hf]
    by_cases h : k = a
    · subst h
      simp
    · simp only [h, if_false, ih]

theorem keys_map_keyfix {β γ : Type} (f : String × β → String × γ)
    (hf : ∀ p, (f p).1 = p.1) (d : List (String × β)) :
    (d.map f).map Prod.fst = d.map Prod.fst := by
  rw [List.map_map]
  exact List.map_congr_left (fun p _ => hf p)

theorem updateEntry_fst (chunk : Chunk) (p : String × HState) :
    (updateEntry chunk p).1 = p.1 := by
  rcases p with ⟨k, st⟩
  cases st <;> by_cases h : k = "crc32" <;> simp [updateEntry, h]

theorem finalizeEntry_fst (hexd : HexFn) (p : String × HState) :
    (finalizeEntry hexd p).1 = p.1 := by
  rcases p with ⟨k, st⟩
  cases st <;> by_cases h : k = "crc32" <;> simp [finalizeEntry, h]

/-- The evolution of one dict value over one chunk, as a function of the key. -/
def updVal (chunk : Chunk) (k : String) (st : HState) : HState :=
  (updateEntry chunk (k, st)).2

theorem lookupD_feedChunks :
    ∀ (chunks : List Chunk) (d : List (String × HState)) (a : String),
    lookupD (feedChunks chunks d) a =
      (lookupD d a).map (fun st => chunks.foldl (fun st c => updVal c a st) st) := by
  intro chunks
  induction chunks with
  | nil =>
    intro d a
    cases h : lookupD d a <;> simp [feedChunks, h]
  | cons c rest ih =>
    intro d a
    show lookupD (feedChunks rest (d.map (updateEntry c))) a = _
    rw [ih, lookupD_map_keyfix (updateEntry c) (updateEntry_fst c)]
    cases lookupD d a <;> simp [updVal]

theorem keys_feedChunks (chunks : List Chunk) (d : List (String × HState)) :
    (feedChunks chunks d).map Prod.fst = d.map Prod.fst := by
  induction chunks generalizing d with
  | nil => rfl
  | cons c rest ih =>
    show (feedChunks rest (d.map (updateEntry c))).map Prod.fst = _
    rw [ih, keys_map_keyfix (updateEntry c) (updateEntry_fst c)]

theorem updVal_crc_fold (chunks : List Chunk) (v : Nat) :
    chunks.foldl (fun st c => updVal c "crc32" st) (HState.crc v) =
      .crc (chunks.foldl (fun crc chunk => zlibCrc32 chunk crc) v) := by
  induction chunks generalizing v with
  | nil => rfl
  | cons c rest ih =>
    have h1 : updVal c "crc32" (HState.crc v) = HState.crc (zlibCrc32 c v) := by
      simp [updVal, updateEntry]
    rw [List.foldl_cons, h1, ih, List.foldl_cons]

theorem updVal_crypto_fold (a : String) (ha : ¬ (a = "crc32")) (chunks : List Chunk)
    (l : List Nat) :
    chunks.foldl (fun st c => updVal c a st) (HState.crypto l) =
      .crypto (chunks.foldl (fun acc chunk => acc ++ chunk) l) := by
  induction chunks generalizing l with
  | nil => rfl
  | cons c rest ih =>
    have h1 : updVal c a (HState.crypto l) = HState.crypto (l ++ c) := by
      simp [updVal, updateEntry, ha]
    rw [List.foldl_cons, h1, ih, List.foldl_cons]

/-! ## Claims C1-C3: the Digest Engine -/

/-- A concrete digest function used to instantiate witnesses: any function
of the algorithm name and the absorbed bytes will do. -/
def hexd0 : HexFn := fun a l => a ++ "-" ++ toString l.length

/-- C1: for every file whose bytes are read without error and every list of
supported algorithm identifiers, `calculate_multiple_hashes` returns a
digest map with exactly one entry per requested algorithm, and for each
requested algorithm that entry equals the digest produced by
`calculate_hash` on the same file with that single algorithm. -/
theorem claim_C1 (hexd : HexFn) (file : FileRead) (algorithms : List String)
    (herr : file.err = none) (hsup : ∀ a ∈ algorithms, supportedOrCrc a) :
    ∃ m, calculate_multiple_hashes hexd file algorithms = .ok m ∧
      (m.map Prod.fst).Nodup ∧
      (∀ a, a ∈ m.map Prod.fst ↔ a ∈ algorithms) ∧
      ∀ a ∈ algorithms, ∃ dgst, lookupD m a = some dgst ∧
        calculate_hash hexd file a = .ok (some dgst) := by
  have hinit : initHashObjects algorithms = .ok (initFold algorithms []) :=
    foldlM_initStep_ok algorithms [] hsup
  refine ⟨(feedChunks file.chunks (initFold algorithms [])).map (finalizeEntry hexd),
    ?_, ?_, ?_, ?_⟩
  · rw [calculate_multiple_hashes, hinit]
    show (match file.err with
          | some _ => Except.ok []
          | none => Except.ok ((feedChunks file.chunks (initFold algorithms [])).map
              (finalizeEntry hexd))) = _
    rw [herr]
  · rw [keys_map_keyfix _ (finalizeEntry_fst hexd), keys_feedChunks]
    exact nodup_keys_initFold algorithms [] (by simp)
  · intro a
    rw [keys_map_keyfix _ (finalizeEntry_fst hexd), keys_feedChunks]
    simpa using mem_keys_initFold algorithms [] a
  · intro a ha
    rw [lookupD_map_keyfix _ (finalizeEntry_fst hexd), lookupD_feedChunks,
        lookupD_initFold, if_pos ha]
    have hnotval : ¬ (a ∉ SUPPORTED_ALGORITHMS ∧ a ≠ "crc32") := by
      rcases hsup a ha with h | h
      · exact fun hc => hc.1 h
      · exact fun hc => hc.2 h
    by_cases hc : a = "crc32"
    · subst hc
      rw [show initState "crc32" = .crc 0 from rfl]
      simp only [Option.map_some']
      rw [updVal_crc_fold]
      refine ⟨_, rfl, ?_⟩
      rw [calculate_hash, if_neg hnotval, if_pos rfl, _calculate_crc32, herr]
      show Except.ok (some (hex8 _)) =
        Except.ok (some ((finalizeEntry hexd ("crc32",
          HState.crc (List.foldl (fun crc chunk => zlibCrc32 chunk crc) 0 file.chunks))).2))
      rfl
    · rw [show initState a = .crypto [] from by simp [initState, hc]]
      simp only [Option.map_some']
      rw [updVal_crypto_fold a hc]
      refine ⟨_, rfl, ?_⟩
      rw [calculate_hash, if_neg hnotval, if_neg hc, _calculate_cryptographic_hash, herr]
      show Except.ok (some (hexd a _)) =
        Except.ok (some ((finalizeEntry hexd (a,
          HState.crypto (List.foldl (fun acc chunk => acc ++ chunk) [] file.chunks))).2))
      simp [finalizeEntry, hc]

/-- Witness for C1 at a concrete file and algorithm list. -/
theorem claim_C1_witness :
    ((⟨[[104, 105], [33]], none⟩ : FileRead).err = none ∧
      ∀ a ∈ ["sha256", "crc32", "sha256"], supportedOrCrc a) ∧
    ∃ m, calculate_multiple_hashes hexd0 ⟨[[104, 105], [33]], none⟩
        ["sha256", "crc32", "sha256"] = .ok m ∧
      (m.map Prod.fst).Nodup ∧
      (∀ a, a ∈ m.map Prod.fst ↔ a ∈ ["sha256", "crc32", "sha256"]) ∧
      ∀ a ∈ ["sha256", "crc32", "sha256"], ∃ dgst, lookupD m a = some dgst ∧
        calculate_hash hexd0 ⟨[[104, 105], [33]], none⟩ a = .ok (some dgst) :=
  ⟨⟨rfl, by decide⟩,
    claim_C1 hexd0 ⟨[[104, 105], [33]], none⟩ ["sha256", "crc32", "sha256"] rfl (by decide)⟩

/-- C2 as stated is false: on a read failure the entry points do NOT fail
with `IOError` — `calculate_hash` catches it and returns `None`.  Concrete
refutation: a file whose open fails yields a normal `.ok none` return and
no exception of any kind reaches the caller. -/
theorem claim_C2_counterexample :
    calculate_hash hexd0 ⟨[[1, 2]], some "disk error"⟩ "sha256" = .ok none ∧
    ∀ e : PyErr,
      calculate_hash hexd0 ⟨[[1, 2]], some "disk error"⟩ "sha256" ≠ .error e := by
  have h : calculate_hash hexd0 ⟨[[1, 2]], some "disk error"⟩ "sha256" = .ok none := by
    rfl
  exact ⟨h, fun e he => by rw [h] at he; cases he⟩

/-- C2 amended: when the file cannot be opened or a read fails partway, the
underlying `IOError` is caught inside both entry points; `calculate_hash`
returns `None` and `calculate_multiple_hashes` returns an empty dict, so a
partial digest is discarded and never returned to the caller. -/
theorem claim_C2 (hexd : HexFn) (chunks : List Chunk) (msg : String)
    (a : String) (algorithms : List String)
    (ha : supportedOrCrc a) (halgs : ∀ b ∈ algorithms, supportedOrCrc b) :
    calculate_hash hexd ⟨chunks, some msg⟩ a = .ok none ∧
    calculate_multiple_hashes hexd ⟨chunks, some msg⟩ algorithms = .ok [] := by
  constructor
  · have hnotval : ¬ (a ∉ SUPPORTED_ALGORITHMS ∧ a ≠ "crc32") := by
      rcases ha with h | h
      · exact fun hc => hc.1 h
      · exact fun hc => hc.2 h
    rw [calculate_hash, if_neg hnotval]
    by_cases hc : a = "crc32"
    · rw [if_pos hc, _calculate_crc32]
    · rw [if_neg hc, _calculate_cryptographic_hash]
  · rw [calculate_multiple_hashes, initHashObjects, foldlM_initStep_ok algorithms [] halgs]
    rfl

/-- Witness for the amended C2 at a concrete erroring file. -/
theorem claim_C2_witness :
    (supportedOrCrc "md5" ∧ ∀ b ∈ ["sha256", "crc32"], supportedOrCrc b) ∧
    calculate_hash hexd0 ⟨[[7]], some "boom"⟩ "md5" = .ok none ∧
    calculate_multiple_hashes hexd0 ⟨[[7]], some "boom"⟩ ["sha256", "crc32"] = .ok [] :=
  ⟨⟨by decide, by decide⟩,
    claim_C2 hexd0 [[7]] "boom" "md5" ["sha256", "crc32"] (by decide) (by decide)⟩

/-- C3: an algorithm identifier outside the supported set makes both entry
points raise `ValueError("Unsupported algorithm: ...")`, and the result is
the same for every file — in particular for files that cannot even be
opened — so the check happens before any bytes are read. -/
theorem claim_C3 (hexd : HexFn) (a : String) (hbad : ¬ supportedOrCrc a) :
    (∀ file, calculate_hash hexd file a =
      .error (.valueError ("Unsupported algorithm: " ++ a))) ∧
    (∀ algorithms, a ∈ algorithms →
      (∀ file file', calculate_multiple_hashes hexd file algorithms =
        calculate_multiple_hashes hexd file' algorithms) ∧
      (∀ file, ∃ b, ¬ supportedOrCrc b ∧
        calculate_multiple_hashes hexd file algorithms =
          .error (.valueError ("Unsupported algorithm: " ++ b)))) := by
  have hval : a ∉ SUPPORTED_ALGORITHMS ∧ a ≠ "crc32" :=
    ⟨fun h => hbad (.inl h), fun h => hbad (.inr h)⟩
  constructor
  · intro file
    rw [calculate_hash, if_pos hval]
  · intro algorithms hmem
    obtain ⟨b, hb, herr⟩ :=
      foldlM_initStep_err algorithms [] ⟨a, hmem, hbad⟩
    have hmulti : ∀ file : FileRead, calculate_multiple_hashes hexd file algorithms =
        .error (.valueError ("Unsupported algorithm: " ++ b)) := by
      intro file
      rw [calculate_multiple_hashes, initHashObjects, herr]
      rfl
    exact ⟨fun file file' => (hmulti file).trans (hmulti file').symm,
      fun file => ⟨b, hb, hmulti file⟩⟩

/-- Witness for C3 at the concrete unsupported identifier `"sha3"`. -/
theorem claim_C3_witness :
    (¬ supportedOrCrc "sha3") ∧
    calculate_hash hexd0 ⟨[], some "cannot open"⟩ "sha3" =
      .error (.valueError ("Unsupported algorithm: " ++ "sha3")) ∧
    ∃ b, ¬ supportedOrCrc b ∧
      calculate_multiple_hashes hexd0 ⟨[], some "cannot open"⟩ ["sha256", "sha3"] =
        .error (.valueError ("Unsupported algorithm: " ++ b)) :=
  ⟨by decide,
    (claim_C3 hexd0 "sha3" (by decide)).1 ⟨[], some "cannot open"⟩,
    ((claim_C3 hexd0 "sha3" (by decide)).2 ["sha256", "sha3"] (by decide)).2
      ⟨[], some "cannot open"⟩⟩

/-! ## Duplicate grouper (`DuplicateFileFinder`, `src/duplicate_finder.py`) -/

/-- The per-file record stored by `scan_directories` (line 65-69):
`(filepath, file_size, mtime)`.  Timestamps are modelled as naturals. -/
structure FInfo where
  path : String
  size : Nat
  mtime : Nat
  deriving Repr, DecidableEq

/-- The comparison used by `file_list.sort(key=lambda x: x[2])`. -/
def rMt (a b : FInfo) : Prop := a.mtime ≤ b.mtime

instance : DecidableRel rMt := fun a b => Nat.decLe a.mtime b.mtime

instance : IsTotal FInfo rMt := ⟨fun a b => Nat.le_total a.mtime b.mtime⟩

instance : IsTrans FInfo rMt := ⟨fun _ _ _ => Nat.le_trans⟩

/-- `self.file_hashes[file_hash].append(file_info)` on the
`defaultdict(list)`: append to the key's list in place, or append a new
singleton entry for a fresh key (scan order preserved in both the key
order and each list). -/
def addFile : List (String × List FInfo) → String → FInfo → List (String × List FInfo)
  | [], h, fi => [(h, [fi])]
  | p :: ps, h, fi =>
    if p.1 = h then (p.1, p.2 ++ [fi]) :: ps else p :: addFile ps h fi

/-- The `file_hashes` defaultdict built by `scan_directories` from the
sequence of (digest, record) pairs in scan order. -/
def file_hashes (input : List (String × FInfo)) : List (String × List FInfo) :=
  input.foldl (fun d q => addFile d q.1 q.2) []

/-- `DuplicateFileFinder.find_duplicates` (lines 81-90): keep the digest
classes with more than one member and sort each by modification time.
Python's `list.sort` is stable; `List.insertionSort` is the canonical
stable sort, so the resulting lists coincide. -/
def find_duplicates (input : List (String × FInfo)) : List (String × List FInfo) :=
  (file_hashes input).filterMap
    (fun p => if p.2.length > 1 then some (p.1, List.insertionSort rMt p.2) else none)

/-- The digest class of `h`: the records carrying digest `h`, in scan
order. -/
def classList (input : List (String × FInfo)) (h : String) : List FInfo :=
  (input.filter (fun q => q.1 == h)).map Prod.snd

/-- Lookup with the defaultdict's reading: absent key means empty list. -/
def getL (d : List (String × List FInfo)) (h : String) : List FInfo :=
  (lookupD d h).getD []

theorem lookupD_addFile (d : List (String × List FInfo)) (h h' : String) (fi : FInfo) :
    lookupD (addFile d h fi) h' =
      if h' = h then some (getL d h' ++ [fi]) else lookupD d h' := by
  induction d with
  | nil =>
    by_cases hh : h' = h
    · subst hh
      simp [addFile, lookupD_cons, getL, lookupD]
    · have h1 : ¬ (h = h') := fun x => hh x.symm
      simp [addFile, lookupD_cons, hh, h1, lookupD]
  | cons p ps ih =>
    by_cases hph : p.1 = h
    · rw [addFile, if_pos hph]
      by_cases hh : h' = h
      · subst hh
        simp [lookupD_cons, hph, getL]
      · have h1 : ¬ (p.1 = h') := fun x => hh (x.symm.trans hph)
        simp [lookupD_cons, h1, hh]
    · rw [addFile, if_neg hph]
      by_cases hh : h' = h
      · subst hh
        have h1 : ¬ (p.1 = h') := hph
        simp [lookupD_cons, h1, ih, getL]
      · by_cases hp : p.1 = h'
        · simp [lookupD_cons, hp, hh]
        · simp [lookupD_cons, hp, hh, ih]

theorem getL_addFile (d : List (String × List FInfo)) (h h' : String) (fi : FInfo) :
    getL (addFile d h fi) h' = if h' = h then getL d h' ++ [fi] else getL d h' := by
  rw [getL, lookupD_addFile]
  by_cases hh : h' = h <;> simp [hh, getL]

theorem getL_foldl_addFile :
    ∀ (input : List (String × FInfo)) (d : List (String × List FInfo)) (h : String),
    getL (input.foldl (fun d q => addFile d q.1 q.2) d) h = getL d h ++ classList input h := by
  intro input
  induction input with
  | nil => intro d h; simp [classList]
  | cons q rest ih =>
    intro d h
    rw [List.foldl_cons, ih, getL_addFile]
    by_cases hh : h = q.1
    · subst hh
      simp [classList, List.filter_cons]
    · have h1 : ¬ (q.1 == h) = true := by simpa using fun x : q.1 = h => hh x.symm
      simp [classList, List.filter_cons, hh, h1]

theorem getL_file_hashes (input : List (String × FInfo)) (h : String) :
    getL (file_hashes input) h = classList input h := by
  have := getL_foldl_addFile input [] h
  simpa [file_hashes, getL, lookupD] using this

theorem keys_addFile (d : List (String × List FInfo)) (h : String) (fi : FInfo) :
    (addFile d h fi).map Prod.fst =
      if h ∈ d.map Prod.fst then d.map Prod.fst else d.map Prod.fst ++ [h] := by
  induction d with
  | nil => simp [addFile]
  | cons p ps ih =>
    by_cases hph : p.1 = h
    · simp [addFile, hph]
    · have hhp : ¬ (h = p.1) := fun x => hph x.symm
      simp only [addFile, if_neg hph, List.map_cons, ih, List.mem_cons]
      by_cases hk : h ∈ ps.map Prod.fst <;> simp [hk, hhp]

theorem mem_keys_addFile {a h : String} (d : List (String × List FInfo)) (fi : FInfo) :
    a ∈ (addFile d h fi).map Prod.fst ↔ a = h ∨ a ∈ d.map Prod.fst := by
  rw [keys_addFile]
  by_cases hk : h ∈ d.map Prod.fst
  · simp only [if_pos hk]
    constructor
    · exact .inr
    · rintro (rfl | hh)
      · exact hk
      · exact hh
  · simp [if_neg hk, List.mem_append, or_comm]

theorem nodup_keys_addFile {d : List (String × List FInfo)}
    (hd : (d.map Prod.fst).Nodup) (h : String) (fi : FInfo) :
    ((addFile d h fi).map Prod.fst).Nodup := by
  rw [keys_addFile]
  by_cases hk : h ∈ d.map Prod.fst
  · simpa [hk] using hd
  · simp [hk, List.nodup_append, hd]

theorem nodup_keys_file_hashes (input : List (String × FInfo)) :
    ((file_hashes input).map Prod.fst).Nodup := by
  have main : ∀ (inp : List (String × FInfo)) (d : List (String × List FInfo)),
      (d.map Prod.fst).Nodup →
      ((inp.foldl (fun d q => addFile d q.1 q.2) d).map Prod.fst).Nodup := by
    intro inp
    induction inp with
    | nil => intro d hd; exact hd
    | cons q rest ih =>
      intro d hd
      exact ih _ (nodup_keys_addFile hd q.1 q.2)
  exact main input [] (by simp)

theorem lookupD_none_iff (d : List (String × α)) (h : String) :
    lookupD d h = none ↔ h ∉ d.map Prod.fst := by
  induction d with
  | nil => simp [lookupD]
  | cons p ps ih =>
    rw [lookupD_cons]
    by_cases hp : p.1 = h
    · simp [hp]
    · have h1 : ¬ (h = p.1) := fun x => hp x.symm
      simp [hp, ih, h1]

theorem mem_keys_file_hashes (input : List (String × FInfo)) (h : String) :
    h ∈ (file_hashes input).map Prod.fst ↔ ∃ q ∈ input, q.1 = h := by
  have main : ∀ (inp : List (String × FInfo)) (d : List (String × List FInfo)),
      h ∈ ((inp.foldl (fun d q => addFile d q.1 q.2) d).map Prod.fst) ↔
        (∃ q ∈ inp, q.1 = h) ∨ h ∈ d.map Prod.fst := by
    intro inp
    induction inp with
    | nil => intro d; simp
    | cons q rest ih =>
      intro d
      rw [List.foldl_cons, ih, mem_keys_addFile]
      simp only [List.mem_cons]
      constructor
      · rintro (⟨x, hx, rfl⟩ | rfl | hd)
        · exact .inl ⟨x, .inr hx, rfl⟩
        · exact .inl ⟨q, .inl rfl, rfl⟩
        · exact .inr hd
      · rintro (⟨x, rfl | hx, rfl⟩ | hd)
        · exact .inr (.inl rfl)
        · exact .inl ⟨x, hx, rfl⟩
        · exact .inr (.inr hd)
  rw [file_hashes, main input []]
  simp

theorem classList_ne_nil_iff (input : List (String × FInfo)) (h : String) :
    classList input h ≠ [] ↔ ∃ q ∈ input, q.1 = h := by
  rw [classList]
  simp [List.filter_eq_nil_iff]

theorem lookupD_file_hashes (input : List (String × FInfo)) (h : String) :
    lookupD (file_hashes input) h =
      if classList input h = [] then none else some (classList input h) := by
  by_cases hc : classList input h = []
  · rw [if_pos hc, lookupD_none_iff, mem_keys_file_hashes]
    intro hex
    exact (classList_ne_nil_iff input h).mpr hex hc
  · rw [if_neg hc]
    have hkey : h ∈ (file_hashes input).map Prod.fst :=
      (mem_keys_file_hashes input h).mpr ((classList_ne_nil_iff input h).mp hc)
    cases hl : lookupD (file_hashes input) h with
    | none => exact absurd ((lookupD_none_iff _ _).mp hl) (by simpa using hkey)
    | some w =>
      have : getL (file_hashes input) h = w := by rw [getL, hl]; rfl
      rw [getL_file_hashes] at this
      rw [this]

theorem lookupD_mem {d : List (String × α)} {h : String} {l : α}
    (hl : lookupD d h = some l) : (h, l) ∈ d := by
  induction d with
  | nil => cases hl
  | cons p ps ih =>
    rw [lookupD_cons] at hl
    by_cases hp : p.1 = h
    · rw [if_pos hp] at hl
      have h2 : p.2 = l := by injection hl
      have h3 : (h, l) = p := by rw [← hp, ← h2]
      rw [h3]
      exact List.mem_cons_self _ _
    · rw [if_neg hp] at hl
      exact .tail _ (ih hl)

theorem mem_lookupD_of_nodup {d : List (String × α)}
    (hnd : (d.map Prod.fst).Nodup) {h : String} {l : α}
    (hm : (h, l) ∈ d) : lookupD d h = some l := by
  induction d with
  | nil => cases hm
  | cons p ps ih =>
    rw [List.map_cons, List.nodup_cons] at hnd
    rcases List.mem_cons.mp hm with rfl | hm2
    · simp [lookupD_cons]
    · have hne : ¬ (p.1 = h) := by
        intro he
        exact hnd.1 (he ▸ List.mem_map_of_mem Prod.fst hm2)
      rw [lookupD_cons, if_neg hne]
      exact ih hnd.2 hm2

/-! ## Stability of the per-group sort -/

theorem filter_orderedInsert (t : Nat) (x : FInfo) :
    ∀ l : List FInfo,
    (List.orderedInsert rMt x l).filter (fun fi => fi.mtime == t) =
      if x.mtime = t then x :: l.filter (fun fi => fi.mtime == t)
      else l.filter (fun fi => fi.mtime == t) := by
  intro l
  induction l with
  | nil => by_cases h : x.mtime = t <;> simp [List.orderedInsert, h]
  | cons y ys ih =>
    rw [List.orderedInsert]
    by_cases hr : rMt x y
    · rw [if_pos hr]
      by_cases hx : x.mtime = t <;> simp [List.filter_cons, hx]
    · rw [if_neg hr]
      by_cases hx : x.mtime = t
      · have hy : ¬ (y.mtime = t) := by
          intro hyt
          exact hr (show x.mtime ≤ y.mtime by omega)
        simp [List.filter_cons, hy, ih, hx]
      · by_cases hy : y.mtime = t <;> simp [List.filter_cons, hy, ih, hx]

theorem filter_insertionSort (t : Nat) (l : List FInfo) :
    (List.insertionSort rMt l).filter (fun fi => fi.mtime == t) =
      l.filter (fun fi => fi.mtime == t) := by
  induction l with
  | nil => rfl
  | cons x xs ih =>
    rw [List.insertionSort, filter_orderedInsert]
    by_cases h : x.mtime = t <;> simp [List.filter_cons, h, ih]

/-! ## Claim C4: the duplicate grouper -/

/-- C4: `find_duplicates` retains exactly the digest classes of two or more
records; every member of a retained group is an input record under the
group's digest; each group is sorted by non-decreasing modification time;
and, restricted to any fixed timestamp, the group lists exactly the class
members in original input order (the tie-breaking of the stable sort).
Being a pure function of the input, the result is deterministic. -/
theorem claim_C4 :
    (∀ (input : List (String × FInfo)) (h : String) (g : List FInfo),
      (h, g) ∈ find_duplicates input →
        2 ≤ g.length ∧
        (∀ fi ∈ g, (h, fi) ∈ input) ∧
        List.Pairwise rMt g ∧
        g.Perm (classList input h) ∧
        (∀ t, g.filter (fun fi => fi.mtime == t) =
          (classList input h).filter (fun fi => fi.mtime == t))) ∧
    (∀ (input : List (String × FInfo)) (h : String),
      2 ≤ (classList input h).length →
        (h, List.insertionSort rMt (classList input h)) ∈ find_duplicates input) := by
  constructor
  · intro input h g hmem
    rw [find_duplicates, List.mem_filterMap] at hmem
    obtain ⟨⟨h', l⟩, hml, hcond⟩ := hmem
    by_cases hlen : l.length > 1
    · rw [if_pos hlen] at hcond
      have hpair : ((h', l).1, List.insertionSort rMt (h', l).2) = (h, g) :=
        Option.some.inj hcond
      have hh2 : h = h' := (congrArg Prod.fst hpair).symm
      have hg2 : List.insertionSort rMt l = g := congrArg Prod.snd hpair
      subst hh2
      have hlook : lookupD (file_hashes input) h = some l :=
        mem_lookupD_of_nodup (nodup_keys_file_hashes input) hml
      rw [lookupD_file_hashes] at hlook
      by_cases hc : classList input h = []
      · rw [if_pos hc] at hlook; cases hlook
      · rw [if_neg hc] at hlook
        have hl : l = classList input h := by injection hlook with hx; exact hx.symm
        subst hl
        subst hg2
        refine ⟨?_, ?_, ?_, ?_, ?_⟩
        · rw [List.length_insertionSort]
          omega
        · intro fi hfi
          have hfi2 : fi ∈ classList input h := (List.mem_insertionSort rMt).mp hfi
          rw [classList] at hfi2
          obtain ⟨q, hq, rfl⟩ := List.mem_map.mp hfi2
          have hq2 := List.mem_filter.mp hq
          have hq3 : q.1 = h := by simpa using hq2.2
          have : q = (h, q.2) := by rw [← hq3]
          rw [← this]
          exact hq2.1
        · exact List.sorted_insertionSort rMt (classList input h)
        · exact List.perm_insertionSort rMt (classList input h)
        · intro t
          exact filter_insertionSort t (classList input h)
    · rw [if_neg hlen] at hcond
      cases hcond
  · intro input h hlen
    rw [find_duplicates, List.mem_filterMap]
    have hc : classList input h ≠ [] := by
      intro hx
      rw [hx] at hlen
      simp at hlen
    have hlook : lookupD (file_hashes input) h = some (classList input h) := by
      rw [lookupD_file_hashes, if_neg hc]
    refine ⟨(h, classList input h), lookupD_mem hlook, ?_⟩
    have hgt : (classList input h).length > 1 := by omega
    rw [if_pos (show ((h, classList input h)).2.length > 1 from hgt)]

/-- Witness for C4: a concrete scan with one duplicated digest (with a
timestamp tie) and one singleton digest. -/
theorem claim_C4_witness :
    (2 ≤ (classList [("d1", ⟨"a", 5, 10⟩), ("d2", ⟨"x", 3, 4⟩),
        ("d1", ⟨"b", 5, 2⟩), ("d1", ⟨"c", 5, 10⟩)] "d1").length) ∧
    (("d1", List.insertionSort rMt (classList [("d1", ⟨"a", 5, 10⟩), ("d2", ⟨"x", 3, 4⟩),
        ("d1", ⟨"b", 5, 2⟩), ("d1", ⟨"c", 5, 10⟩)] "d1")) ∈
      find_duplicates [("d1", ⟨"a", 5, 10⟩), ("d2", ⟨"x", 3, 4⟩),
        ("d1", ⟨"b", 5, 2⟩), ("d1", ⟨"c", 5, 10⟩)]) ∧
    (2 ≤ (List.insertionSort rMt (classList [("d1", ⟨"a", 5, 10⟩), ("d2", ⟨"x", 3, 4⟩),
        ("d1", ⟨"b", 5, 2⟩), ("d1", ⟨"c", 5, 10⟩)] "d1")).length ∧
     List.Pairwise rMt (List.insertionSort rMt (classList [("d1", ⟨"a", 5, 10⟩),
        ("d2", ⟨"x", 3, 4⟩), ("d1", ⟨"b", 5, 2⟩), ("d1", ⟨"c", 5, 10⟩)] "d1"))) := by
  refine ⟨by decide, ?_, ?_⟩
  · exact claim_C4.2 [("d1", ⟨"a", 5, 10⟩), ("d2", ⟨"x", 3, 4⟩),
      ("d1", ⟨"b", 5, 2⟩), ("d1", ⟨"c", 5, 10⟩)] "d1" (by decide)
  · have hm := claim_C4.2 [("d1", ⟨"a", 5, 10⟩), ("d2", ⟨"x", 3, 4⟩),
      ("d1", ⟨"b", 5, 2⟩), ("d1", ⟨"c", 5, 10⟩)] "d1" (by decide)
    have hp := claim_C4.1 [("d1", ⟨"a", 5, 10⟩), ("d2", ⟨"x", 3, 4⟩),
      ("d1", ⟨"b", 5, 2⟩), ("d1", ⟨"c", 5, 10⟩)] "d1" _ hm
    exact ⟨hp.1, hp.2.2.1⟩

/-! ## Manifest verifier (`FileHasher.verify_hashes`, lines 125-193) -/

/-- What the filesystem knows about one existing path: whether it is a
regular file (`os.path.isfile`), its `os.stat` size and mtime, and the
outcome of opening and reading it. -/
structure FileNode where
  isfile : Bool
  size : Nat
  mtime : Nat
  read : FileRead
  deriving Repr, DecidableEq

/-- The filesystem visible to the verifier: an association of paths to
nodes.  A path not in the list does not exist (`os.path.exists` false). -/
structure FS where
  files : List (String × FileNode)
  deriving Repr, DecidableEq

def FS.lookup (fs : FS) (p : String) : Option FileNode := lookupD fs.files p

def FS.exists (fs : FS) (p : String) : Bool := (fs.lookup p).isSome

/-- Split a character list at every `'/'` (auxiliary for path handling;
written on `List Char` so that it evaluates by kernel reduction). -/
def splitOnSlash : List Char → List (List Char)
  | [] => [[]]
  | c :: cs =>
    match splitOnSlash cs with
    | [] => [[]]
    | y :: ys => if c = '/' then [] :: y :: ys else (c :: y) :: ys

/-- `os.path.basename`: the part of the path after the last `'/'`. -/
def basename (p : String) : String :=
  match (splitOnSlash p.data).getLast? with
  | some l => String.mk l
  | none => p

/-- Python `str.lower()` (ASCII range, which covers hex digest strings). -/
def pyLower (s : String) : String := String.mk (s.data.map Char.toLower)

/-- A structured manifest entry as the verifier sees it after JSON
parsing: the values of the keys it may `.get`.  The code only ever reads
`'filepath'`, `'hashes'` and (in a dead branch) `'hash'`; a key such as
`'path'` is never looked at, which is why it is carried separately. -/
structure PEntry where
  filepath : Option String := none
  path : Option String := none
  hashes : Option (List (String × String)) := none
  hash : Option String := none
  deriving Repr, DecidableEq

/-- `FileHasher.hash_file` (lines 73-98), restricted to the fields the
verifier consumes (`filename`, `size`, `hashes`); bookkeeping fields
(`filepath`, `modified`, `processing_time`) and the instance counters are
not modelled.  Returns the `{'error': ...}` dict when the path is not a
regular file; a `ValueError` from the digest engine propagates. -/
inductive HashFileResult : Type where
  | error (msg : String)
  | ok (filename : String) (size : Nat) (hashes : List (String × String))
  deriving Repr, DecidableEq

def hash_file (hexd : HexFn) (fs : FS) (filepath : String) (algorithms : List String) :
    Except PyErr HashFileResult :=
  match fs.lookup filepath with
  | none => .ok (.error ("File not found: " ++ filepath))
  | some node =>
    if node.isfile = false then .ok (.error ("File not found: " ++ filepath))
    else
      match algorithms with
      | [a] =>
        match calculate_hash hexd node.read a with
        | .error err => .error err
        | .ok (some h) => .ok (.ok (basename filepath) node.size [(a, h)])
        | .ok none => .ok (.ok (basename filepath) node.size [])
      | _ =>
        match calculate_multiple_hashes hexd node.read algorithms with
        | .error err => .error err
        | .ok hs => .ok (.ok (basename filepath) node.size hs)

/-- The per-entry verification record (lines 171-187). `matches` for one
algorithm is falsy when the recomputed digest is absent, and otherwise the
case-insensitive comparison of the two hex strings. -/
structure VRecord where
  filepath : String
  filename : String
  size : Nat
  hash_matches : List (String × String × Option String × Bool)
  overall_match : Bool
  deriving Repr, DecidableEq

structure MissRecord where
  filepath : String
  reason : String
  deriving Repr, DecidableEq

structure ErrRecord where
  filepath : String
  error : String
  deriving Repr, DecidableEq

/-- The four buckets of `verification_results`. -/
structure VRes where
  verified : List VRecord
  failed : List VRecord
  missing : List MissRecord
  errors : List ErrRecord
  deriving Repr, DecidableEq

/-- How one manifest entry is classified by one loop iteration. -/
inductive Classified : Type where
  | missing (r : MissRecord)
  | errored (r : ErrRecord)
  | verified (r : VRecord)
  | failed (r : VRecord)
  deriving Repr, DecidableEq

/-- One iteration of the loop at lines 149-191.  `entry.get('filepath')`
may be `None` (e.g. for a manifest entry keyed `"path"`), in which case
`os.path.exists(None)` raises an uncaught `TypeError` (`genericpath.exists`
only catches `OSError` and `ValueError`). -/
def verifyOne (hexd : HexFn) (fs : FS) (e : PEntry) : Except PyErr Classified :=
  match e.filepath with
  | none => .error (.typeError "stat: path should be string, bytes, os.PathLike or integer, not NoneType")
  | some p =>
    let expected := e.hashes.getD []
    if FS.exists fs p = false then
      .ok (.missing ⟨p, "File not found"⟩)
    else
      match hash_file hexd fs p (expected.map Prod.fst) with
      | .error err => .error err
      | .ok (.error msg) => .ok (.errored ⟨p, msg⟩)
      | .ok (.ok fname sz hs) =>
        let hash_matches := expected.map (fun q =>
          let cur := lookupD hs q.1
          let ok := match cur with
                    | none => false
                    | some c => pyLower c == pyLower q.2
          (q.1, q.2, cur, ok))
        let overall := hash_matches.all (fun q => q.2.2.2)
        let r : VRecord := ⟨p, fname, sz, hash_matches, overall⟩
        if overall then .ok (.verified r) else .ok (.failed r)

def prependC (c : Classified) (r : VRes) : VRes :=
  match c with
  | .missing m => { r with missing := m :: r.missing }
  | .errored e => { r with errors := e :: r.errors }
  | .verified v => { r with verified := v :: r.verified }
  | .failed f => { r with failed := f :: r.failed }

/-- The verification loop of `verify_hashes` over the already-parsed
`files_to_verify` list (lines 145-193).  The manifest-file reading and
format dispatch of lines 132-148 supply this list; every parsed entry is a
dict, so the `isinstance` branch of lines 150-155 always takes the dict
arm.  An exception thrown in one iteration propagates and the partially
built result dict is lost, exactly as in Python. -/
def verify_hashes (hexd : HexFn) (fs : FS) : List PEntry → Except PyErr VRes
  | [] => .ok ⟨[], [], [], []⟩
  | e :: rest =>
    match verifyOne hexd fs e with
    | .error err => .error err
    | .ok c =>
      match verify_hashes hexd fs rest with
      | .error err => .error err
      | .ok r => .ok (prependC c r)

/-! ## Claims C5, C6: verification of manifest entries -/

theorem verify_hashes_cons_ok {hexd : HexFn} {fs : FS} {e : PEntry} {rest : List PEntry}
    {r : VRes} (h : verify_hashes hexd fs (e :: rest) = .ok r) :
    ∃ c r', verifyOne hexd fs e = .ok c ∧ verify_hashes hexd fs rest = .ok r' ∧
      r = prependC c r' := by
  rw [verify_hashes] at h
  cases hc : verifyOne hexd fs e with
  | error err => rw [hc] at h; cases h
  | ok c =>
    rw [hc] at h
    cases hr : verify_hashes hexd fs rest with
    | error err => rw [hr] at h; cases h
    | ok r' =>
      rw [hr] at h
      exact ⟨c, r', rfl, rfl, (Except.ok.inj h).symm⟩

/-- A `failed` classification only arises for an entry whose path passed
the existence check. -/
theorem verifyOne_failed_exists {hexd : HexFn} {fs : FS} {e : PEntry} {f : VRecord}
    (h : verifyOne hexd fs e = .ok (.failed f)) : FS.exists fs f.filepath = true := by
  cases hfp : e.filepath with
  | none =>
    simp only [verifyOne, hfp] at h
    exact Except.noConfusion h
  | some p =>
    simp only [verifyOne, hfp] at h
    by_cases hex : FS.exists fs p = false
    · rw [if_pos hex] at h
      exact Classified.noConfusion (Except.ok.inj h)
    · rw [if_neg hex] at h
      cases hhf : hash_file hexd fs p ((e.hashes.getD []).map Prod.fst) with
      | error err =>
        rw [hhf] at h
        exact Except.noConfusion h
      | ok info =>
        rw [hhf] at h
        cases info with
        | error msg => exact Classified.noConfusion (Except.ok.inj h)
        | ok fname sz hs =>
          simp only [] at h
          split at h
          · exact Classified.noConfusion (Except.ok.inj h)
          · have hf : f.filepath = p :=
              congrArg VRecord.filepath (Classified.failed.inj (Except.ok.inj h)).symm
            rw [hf]
            cases hb : FS.exists fs p with
            | false => exact absurd hb hex
            | true => rfl

/-- C5 as stated is false for the spec's own structured example: an entry
keyed `"path"` (not `"filepath"`) makes `file_entry.get('filepath')` return
`None`, and `os.path.exists(None)` raises an uncaught `TypeError`, so the
run aborts instead of classifying the entry as `missing`. -/
theorem claim_C5_counterexample :
    verify_hashes hexd0 ⟨[]⟩
        [⟨none, some "missing.txt", some [("sha256", "abc")], none⟩] =
      .error (.typeError
        "stat: path should be string, bytes, os.PathLike or integer, not NoneType") ∧
    ∀ r : VRes, verify_hashes hexd0 ⟨[]⟩
        [⟨none, some "missing.txt", some [("sha256", "abc")], none⟩] ≠ .ok r := by
  have h : verify_hashes hexd0 ⟨[]⟩
      [⟨none, some "missing.txt", some [("sha256", "abc")], none⟩] =
      .error (.typeError
        "stat: path should be string, bytes, os.PathLike or integer, not NoneType") := rfl
  exact ⟨h, fun r hr => by rw [h] at hr; cases hr⟩

/-- C5 amended: for an entry that carries its reference under the
`'filepath'` key, a nonexistent path is classified `missing` with reason
"File not found" — never `failed` — and the file is not re-hashed (the
classification holds for every digest function); entries keyed `'path'`
instead abort the run with a `TypeError`. -/
theorem claim_C5 (fs : FS) (p : String) (hnp : fs.lookup p = none) :
    (∀ (hexd : HexFn) (e : PEntry), e.filepath = some p →
      verifyOne hexd fs e = .ok (.missing ⟨p, "File not found"⟩)) ∧
    (∀ (hexd : HexFn) (entries : List PEntry) (r : VRes),
      verify_hashes hexd fs entries = .ok r →
      (∀ v ∈ r.failed, v.filepath ≠ p) ∧
      (∀ e ∈ entries, e.filepath = some p →
        (⟨p, "File not found"⟩ : MissRecord) ∈ r.missing)) := by
  have hex : FS.exists fs p = false := by
    rw [FS.exists, hnp]
    rfl
  have hone : ∀ (hexd : HexFn) (e : PEntry), e.filepath = some p →
      verifyOne hexd fs e = .ok (.missing ⟨p, "File not found"⟩) := by
    intro hexd e hfp
    simp only [verifyOne, hfp]
    rw [if_pos hex]
  refine ⟨hone, ?_⟩
  intro hexd entries
  induction entries with
  | nil =>
    intro r hr
    have : (⟨[], [], [], []⟩ : VRes) = r := Except.ok.inj hr
    subst this
    exact ⟨fun v hv => absurd hv (by simp), fun e he => absurd he (by simp)⟩
  | cons e rest ih =>
    intro r hr
    obtain ⟨c, r', hc, hr', rfl⟩ := verify_hashes_cons_ok hr
    obtain ⟨hfail', hmiss'⟩ := ih r' hr'
    constructor
    · intro v hv hvp
      cases c with
      | failed f =>
        rcases List.mem_cons.mp (by simpa [prependC] using hv) with rfl | hv2
        · have := verifyOne_failed_exists hc
          rw [hvp] at this
          rw [FS.exists, hnp] at this
          cases this
        · exact hfail' v hv2 hvp
      | missing m => exact hfail' v (by simpa [prependC] using hv) hvp
      | errored e2 => exact hfail' v (by simpa [prependC] using hv) hvp
      | verified v2 => exact hfail' v (by simpa [prependC] using hv) hvp
    · intro e2 he2 hfp2
      have hsub : r'.missing ⊆ (prependC c r').missing := by
        cases c <;> simp [prependC, List.subset_cons_self, List.Subset.refl]
      rcases List.mem_cons.mp he2 with rfl | he3
      · have : c = .missing ⟨p, "File not found"⟩ :=
          (Except.ok.inj ((hone hexd e2 hfp2).symm.trans hc)).symm
        subst this
        simp [prependC]
      · exact hsub (hmiss' e2 he3 hfp2)

/-- Witness for the amended C5 at a concrete filesystem and manifest. -/
theorem claim_C5_witness :
    ((⟨[("present.txt", ⟨true, 1, 0, ⟨[[65]], none⟩⟩)]⟩ : FS).lookup "gone.txt" = none) ∧
    (verifyOne hexd0 ⟨[("present.txt", ⟨true, 1, 0, ⟨[[65]], none⟩⟩)]⟩
        ⟨some "gone.txt", none, some [("sha256", "ff")], none⟩ =
      .ok (.missing ⟨"gone.txt", "File not found"⟩)) := by
  refine ⟨rfl, ?_⟩
  exact (claim_C5 ⟨[("present.txt", ⟨true, 1, 0, ⟨[[65]], none⟩⟩)]⟩ "gone.txt" rfl).1
    hexd0 ⟨some "gone.txt", none, some [("sha256", "ff")], none⟩ rfl

/-- C6 as stated is false: a file that exists and is a regular file but
whose read raises `IOError` during re-hashing is classified `failed` (with
recomputed digest `None`), not `error` — `hash_file` swallows the read
error and returns an empty digest map, and the `errors` bucket is reached
only via the `'error'` key, which `hash_file` sets only for paths that are
not regular files. -/
theorem claim_C6_counterexample :
    verify_hashes hexd0 ⟨[("f.txt", ⟨true, 3, 0, ⟨[], some "Permission denied"⟩⟩)]⟩
        [⟨some "f.txt", none, some [("sha256", "abc")], none⟩] =
      .ok ⟨[], [⟨"f.txt", "f.txt", 3, [("sha256", "abc", none, false)], false⟩], [], []⟩ := by
  rfl

/-- Digest-engine helpers shared by the verifier proofs: a read failure is
swallowed, yielding `None` / an empty dict. -/
theorem calculate_hash_read_err {hexd : HexFn} {a : String} (ha : supportedOrCrc a)
    (file : FileRead) (msg : String) (he : file.err = some msg) :
    calculate_hash hexd file a = .ok none := by
  have hnotval : ¬ (a ∉ SUPPORTED_ALGORITHMS ∧ a ≠ "crc32") := by
    rcases ha with h | h
    · exact fun hc => hc.1 h
    · exact fun hc => hc.2 h
  rw [calculate_hash, if_neg hnotval]
  by_cases hc : a = "crc32"
  · rw [if_pos hc, _calculate_crc32, he]
  · rw [if_neg hc, _calculate_cryptographic_hash, he]

theorem calculate_multiple_read_err {hexd : HexFn} {algorithms : List String}
    (hs : ∀ b ∈ algorithms, supportedOrCrc b) (file : FileRead) (msg : String)
    (he : file.err = some msg) :
    calculate_multiple_hashes hexd file algorithms = .ok [] := by
  rw [calculate_multiple_hashes, initHashObjects, foldlM_initStep_ok algorithms [] hs]
  show (match file.err with
        | some _ => Except.ok []
        | none => Except.ok ((feedChunks file.chunks (initFold algorithms [])).map
            (finalizeEntry hexd))) = _
  rw [he]

/-- When the path is a regular file but the read fails, `hash_file`
returns a normal record whose digest map is empty. -/
theorem hash_file_read_err {hexd : HexFn} {fs : FS} {p : String} {node : FileNode}
    {msg : String} (hlk : fs.lookup p = some node) (hisf : node.isfile = true)
    (herr : node.read.err = some msg) (algorithms : List String)
    (hsup : ∀ b ∈ algorithms, supportedOrCrc b) :
    hash_file hexd fs p algorithms = .ok (.ok (basename p) node.size []) := by
  cases algorithms with
  | nil =>
    have hm := @calculate_multiple_read_err hexd []
      (show ∀ b ∈ ([] : List String), supportedOrCrc b from by simp) node.read msg herr
    simp [hash_file, hlk, hisf, hm]
  | cons a rest =>
    cases rest with
    | nil =>
      have hm := @calculate_hash_read_err hexd a (hsup a (by simp)) node.read msg herr
      simp [hash_file, hlk, hisf, hm]
    | cons b rest2 =>
      have hm := @calculate_multiple_read_err hexd (a :: b :: rest2) hsup node.read msg herr
      simp [hash_file, hlk, hisf, hm]

/-- C6 amended: for a manifest entry (keyed `'filepath'`) whose referenced
file exists as a regular file but suffers an I/O error while being
re-hashed, the verifier classifies the entry as `failed` — with every
recomputed digest absent (`None`) — not as `error`, and the run continues
with the remaining entries rather than aborting. -/
theorem claim_C6 (hexd : HexFn) (fs : FS) (p : String) (node : FileNode) (msg : String)
    (hashes : List (String × String)) (e : PEntry)
    (hlk : fs.lookup p = some node) (hisf : node.isfile = true)
    (herr : node.read.err = some msg)
    (hfp : e.filepath = some p) (hhs : e.hashes = some hashes) (hne : hashes ≠ [])
    (hsup : ∀ q ∈ hashes, supportedOrCrc q.1) :
    verifyOne hexd fs e = .ok (.failed
      ⟨p, basename p, node.size, hashes.map (fun q => (q.1, q.2, none, false)), false⟩) ∧
    ∀ (rest : List PEntry) (r' : VRes), verify_hashes hexd fs rest = .ok r' →
      verify_hashes hexd fs (e :: rest) = .ok
        { r' with failed := ⟨p, basename p, node.size,
            hashes.map (fun q => (q.1, q.2, none, false)), false⟩ :: r'.failed } := by
  have hsup2 : ∀ b ∈ hashes.map Prod.fst, supportedOrCrc b := by
    intro b hb
    obtain ⟨q, hq, rfl⟩ := List.mem_map.mp hb
    exact hsup q hq
  have hhf := @hash_file_read_err hexd fs p node msg hlk hisf herr (hashes.map Prod.fst) hsup2
  have hexists : ¬ (FS.exists fs p = false) := by
    rw [FS.exists, hlk]
    intro h
    cases h
  obtain ⟨q0, qs, rfl⟩ : ∃ q0 qs, hashes = q0 :: qs := by
    cases hashes with
    | nil => exact absurd rfl hne
    | cons a b => exact ⟨a, b, rfl⟩
  have hone : verifyOne hexd fs e = .ok (.failed
      ⟨p, basename p, node.size, ((q0 :: qs).map (fun q => (q.1, q.2, none, false))), false⟩) := by
    simp only [verifyOne, hfp, hhs, Option.getD_some]
    rw [if_neg hexists]
    simp only [hhf]
    have hmap : ((q0 :: qs).map (fun q =>
        (q.1, q.2, lookupD ([] : List (String × String)) q.1,
          match lookupD ([] : List (String × String)) q.1 with
          | none => false
          | some c => pyLower c == pyLower q.2))) =
        ((q0 :: qs).map (fun q => (q.1, q.2, (none : Option String), false))) := by
      simp [lookupD]
    rw [hmap]
    have hall : ((q0 :: qs).map (fun q =>
        (q.1, q.2, (none : Option String), false))).all (fun q => q.2.2.2) = false := by
      simp
    rw [hall]
    rfl
  refine ⟨hone, ?_⟩
  intro rest r' hrest
  rw [verify_hashes, hone, hrest]
  rfl

/-- Witness for the amended C6 at a concrete filesystem and manifest. -/
theorem claim_C6_witness :
    ((⟨[("data.bin", ⟨true, 9, 5, ⟨[[1, 2]], some "Input-output error"⟩⟩)]⟩ : FS).lookup
        "data.bin" = some ⟨true, 9, 5, ⟨[[1, 2]], some "Input-output error"⟩⟩ ∧
      ([("md5", "aa"), ("crc32", "bb")] : List (String × String)) ≠ [] ∧
      (∀ q ∈ ([("md5", "aa"), ("crc32", "bb")] : List (String × String)),
        supportedOrCrc q.1)) ∧
    verify_hashes hexd0 ⟨[("data.bin", ⟨true, 9, 5, ⟨[[1, 2]], some "Input-output error"⟩⟩)]⟩
        [⟨some "data.bin", none, some [("md5", "aa"), ("crc32", "bb")], none⟩] =
      .ok ⟨[], [⟨"data.bin", basename "data.bin", 9,
        [("md5", "aa", none, false), ("crc32", "bb", none, false)], false⟩], [], []⟩ := by
  refine ⟨⟨rfl, by decide, by decide⟩, ?_⟩
  have h := claim_C6 hexd0
    ⟨[("data.bin", ⟨true, 9, 5, ⟨[[1, 2]], some "Input-output error"⟩⟩)]⟩
    "data.bin" ⟨true, 9, 5, ⟨[[1, 2]], some "Input-output error"⟩⟩ "Input-output error"
    [("md5", "aa"), ("crc32", "bb")]
    ⟨some "data.bin", none, some [("md5", "aa"), ("crc32", "bb")], none⟩
    rfl rfl rfl rfl rfl (by decide) (by decide)
  exact h.2 [] ⟨[], [], [], []⟩ rfl

/-! ## Resolution engine: `remove_duplicates` (lines 129-173) -/

/-- State threaded through the removal loops.  `deleted` and `counted` are
instrumentation: `deleted` lists the files actually unlinked (in order) and
`counted` the files for which `removed_count`/`space_freed` were bumped;
the numeric fields are the source's counters. -/
structure RmState where
  deleted : List FInfo
  counted : List FInfo
  removed_count : Nat
  space_freed : Nat
  promptIdx : Nat
  aborted : Bool
  deriving Repr, DecidableEq

/-- Lines 166-167: `removed_count += 1; space_freed += size`. -/
def rmBump (st : RmState) (fi : FInfo) : RmState :=
  { st with counted := st.counted ++ [fi],
            removed_count := st.removed_count + 1,
            space_freed := st.space_freed + fi.size }

/-- Lines 159-170: the `try` block.  In a real run `filepath.unlink()` may
raise `OSError` (modelled by the `unlinkErr` oracle), in which case the
counters are not bumped; in dry-run mode nothing is unlinked but the
counters are bumped. -/
def rmTryDelete (dry_run : Bool) (unlinkErr : String → Option String)
    (st : RmState) (fi : FInfo) : RmState :=
  if dry_run = false then
    match unlinkErr fi.path with
    | some _ => st
    | none => rmBump { st with deleted := st.deleted ++ [fi] } fi
  else rmBump st fi

/-- Lines 149-170: one candidate of `files[1:]`.  The interactive prompt
(consulted only when `interactive and not dry_run`) is modelled by the
oracle `resp`, consumed in prompt order; `'q'` aborts (the Python `return`
is modelled by the `aborted` flag short-circuiting the rest), any answer
other than `'y'` skips the file. -/
def rmFile (interactive dry_run : Bool) (resp : Nat → String)
    (unlinkErr : String → Option String) (st : RmState) (fi : FInfo) : RmState :=
  if st.aborted then st
  else if interactive = true ∧ dry_run = false then
    if pyLower (resp st.promptIdx) = "q" then
      { st with promptIdx := st.promptIdx + 1, aborted := true }
    else if pyLower (resp st.promptIdx) ≠ "y" then
      { st with promptIdx := st.promptIdx + 1 }
    else rmTryDelete dry_run unlinkErr { st with promptIdx := st.promptIdx + 1 } fi
  else rmTryDelete dry_run unlinkErr st fi

/-- `DuplicateFileFinder.remove_duplicates` (lines 129-173): per group,
keep `files[0]` and process `files[1:]`.  `original = files[0]` raises
`IndexError` on an empty group (never produced by `find_duplicates`). -/
def remove_duplicates (duplicates : List (String × List FInfo))
    (interactive dry_run : Bool) (resp : Nat → String)
    (unlinkErr : String → Option String) : Except PyErr RmState :=
  duplicates.foldlM
    (fun st g =>
      match g.2 with
      | [] => .error (.indexError "list index out of range")
      | _ :: dups => .ok (dups.foldl (rmFile interactive dry_run resp unlinkErr) st))
    ⟨[], [], 0, 0, 0, false⟩

/-- The completion report of lines 172-173 (`Freed {space_freed} by
removing {removed_count} ...`); after a `'q'` abort the function returns
early and no report is printed. -/
def rmReport (st : RmState) : Option (Nat × Nat) :=
  if st.aborted then none else some (st.removed_count, st.space_freed)

def sumSizes (l : List FInfo) : Nat := (l.map (fun fi => fi.size)).sum

/-- The C8 bookkeeping invariant of a removal state. -/
def RmInv (dry_run : Bool) (st : RmState) : Prop :=
  st.removed_count = st.counted.length ∧
  st.space_freed = sumSizes st.counted ∧
  (dry_run = false → st.counted = st.deleted)

theorem rmTryDelete_inv {dry_run : Bool} {unlinkErr : String → Option String}
    {st : RmState} {fi : FInfo} (h : RmInv dry_run st) :
    RmInv dry_run (rmTryDelete dry_run unlinkErr st fi) := by
  obtain ⟨h1, h2, h3⟩ := h
  rw [rmTryDelete]
  by_cases hd : dry_run = false
  · rw [if_pos hd]
    cases unlinkErr fi.path with
    | some m => exact ⟨h1, h2, h3⟩
    | none =>
      refine ⟨?_, ?_, ?_⟩
      · simp [rmBump, h1]
      · simp [rmBump, h2, sumSizes]
      · intro hdd
        simp [rmBump, h3 hd]
  · rw [if_neg hd]
    refine ⟨?_, ?_, ?_⟩
    · simp [rmBump, h1]
    · simp [rmBump, h2, sumSizes]
    · intro hdd
      exact absurd hdd hd

theorem rmFile_inv {interactive dry_run : Bool} {resp : Nat → String}
    {unlinkErr : String → Option String} {st : RmState} {fi : FInfo}
    (h : RmInv dry_run st) :
    RmInv dry_run (rmFile interactive dry_run resp unlinkErr st fi) := by
  rw [rmFile]
  by_cases ha : st.aborted
  · rw [if_pos ha]; exact h
  · rw [if_neg ha]
    by_cases hi : interactive = true ∧ dry_run = false
    · rw [if_pos hi]
      by_cases hq : pyLower (resp st.promptIdx) = "q"
      · rw [if_pos hq]
        exact ⟨h.1, h.2.1, fun hd => h.2.2 hd⟩
      · rw [if_neg hq]
        by_cases hy : pyLower (resp st.promptIdx) ≠ "y"
        · rw [if_pos hy]
          exact ⟨h.1, h.2.1, fun hd => h.2.2 hd⟩
        · rw [if_neg hy]
          exact rmTryDelete_inv ⟨h.1, h.2.1, fun hd => h.2.2 hd⟩
    · rw [if_neg hi]
      exact rmTryDelete_inv h

theorem foldl_rmFile_inv {interactive dry_run : Bool} {resp : Nat → String}
    {unlinkErr : String → Option String} :
    ∀ (l : List FInfo) (st : RmState), RmInv dry_run st →
    RmInv dry_run (l.foldl (rmFile interactive dry_run resp unlinkErr) st) := by
  intro l
  induction l with
  | nil => intro st h; exact h
  | cons fi rest ih =>
    intro st h
    exact ih _ (rmFile_inv h)

/-- Step growth: one removal step only ever appends the processed file. -/
theorem rmFile_deleted_sub {interactive dry_run : Bool} {resp : Nat → String}
    {unlinkErr : String → Option String} (st : RmState) (fi : FInfo) :
    ((rmFile interactive dry_run resp unlinkErr st fi).deleted = st.deleted ∨
      (rmFile interactive dry_run resp unlinkErr st fi).deleted = st.deleted ++ [fi]) ∧
    ((rmFile interactive dry_run resp unlinkErr st fi).counted = st.counted ∨
      (rmFile interactive dry_run resp unlinkErr st fi).counted = st.counted ++ [fi]) := by
  rw [rmFile]
  by_cases ha : st.aborted
  · rw [if_pos ha]; exact ⟨.inl rfl, .inl rfl⟩
  · rw [if_neg ha]
    have htry : ∀ st2 : RmState,
        ((rmTryDelete dry_run unlinkErr st2 fi).deleted = st2.deleted ∨
          (rmTryDelete dry_run unlinkErr st2 fi).deleted = st2.deleted ++ [fi]) ∧
        ((rmTryDelete dry_run unlinkErr st2 fi).counted = st2.counted ∨
          (rmTryDelete dry_run unlinkErr st2 fi).counted = st2.counted ++ [fi]) := by
      intro st2
      rw [rmTryDelete]
      by_cases hd : dry_run = false
      · rw [if_pos hd]
        cases unlinkErr fi.path with
        | some m => exact ⟨.inl rfl, .inl rfl⟩
        | none => exact ⟨.inr rfl, .inr rfl⟩
      · rw [if_neg hd]
        exact ⟨.inl rfl, .inr rfl⟩
    by_cases hi : interactive = true ∧ dry_run = false
    · rw [if_pos hi]
      by_cases hq : pyLower (resp st.promptIdx) = "q"
      · rw [if_pos hq]
        exact ⟨.inl rfl, .inl rfl⟩
      · rw [if_neg hq]
        by_cases hy : pyLower (resp st.promptIdx) ≠ "y"
        · rw [if_pos hy]
          exact ⟨.inl rfl, .inl rfl⟩
        · rw [if_neg hy]
          exact htry _
    · rw [if_neg hi]
      exact htry st

theorem foldl_rmFile_mem {interactive dry_run : Bool} {resp : Nat → String}
    {unlinkErr : String → Option String} :
    ∀ (l : List FInfo) (st : RmState) (x : FInfo),
    (x ∈ (l.foldl (rmFile interactive dry_run resp unlinkErr) st).deleted →
      x ∈ st.deleted ∨ x ∈ l) ∧
    (x ∈ (l.foldl (rmFile interactive dry_run resp unlinkErr) st).counted →
      x ∈ st.counted ∨ x ∈ l) := by
  intro l
  induction l with
  | nil => intro st x; exact ⟨fun h => .inl h, fun h => .inl h⟩
  | cons fi rest ih =>
    intro st x
    constructor
    · intro hx
      rcases (ih (rmFile interactive dry_run resp unlinkErr st fi) x).1 hx with h | h
      · rcases (rmFile_deleted_sub st fi).1 with he | he
        · rw [he] at h; exact .inl h
        · rw [he] at h
          rcases List.mem_append.mp h with h2 | h2
          · exact .inl h2
          · have hx2 : x = fi := by simpa using h2
            exact .inr (hx2 ▸ List.mem_cons_self fi rest)
      · exact .inr (List.mem_cons_of_mem fi h)
    · intro hx
      rcases (ih (rmFile interactive dry_run resp unlinkErr st fi) x).2 hx with h | h
      · rcases (rmFile_deleted_sub st fi).2 with he | he
        · rw [he] at h; exact .inl h
        · rw [he] at h
          rcases List.mem_append.mp h with h2 | h2
          · exact .inl h2
          · have hx2 : x = fi := by simpa using h2
            exact .inr (hx2 ▸ List.mem_cons_self fi rest)
      · exact .inr (List.mem_cons_of_mem fi h)

/-! ## Resolution engine: `move_duplicates_to_folder` (lines 175-217) -/

/-- Decimal representations get arbitrarily long: monotonicity of
`Nat.toDigitsCore` in its accumulator. -/
theorem toDigitsCore_length_mono :
    ∀ (fuel n : Nat) (acc : List Char),
    acc.length ≤ (Nat.toDigitsCore 10 fuel n acc).length := by
  intro fuel
  induction fuel with
  | zero => intro n acc; simp [Nat.toDigitsCore]
  | succ f ih =>
    intro n acc
    simp only [Nat.toDigitsCore]
    by_cases hdiv : n / 10 = 0
    · simp [hdiv]
    · rw [if_neg hdiv]
      exact le_trans (Nat.le_succ _) (ih (n / 10) (Nat.digitChar (n % 10) :: acc))

/-- Lower bound on the digit count: `n ≥ 10^k` needs more than `k`
digits. -/
theorem toDigitsCore_length_lower :
    ∀ (k fuel n : Nat) (acc : List Char), 10 ^ k ≤ n → k < fuel →
    k + 1 + acc.length ≤ (Nat.toDigitsCore 10 fuel n acc).length := by
  intro k
  induction k with
  | zero =>
    intro fuel n acc h1 h2
    cases fuel with
    | zero => omega
    | succ f =>
      simp only [Nat.toDigitsCore]
      by_cases hdiv : n / 10 = 0
      · simp [hdiv]
        omega
      · rw [if_neg hdiv]
        have := toDigitsCore_length_mono f (n / 10) (Nat.digitChar (n % 10) :: acc)
        simp only [List.length_cons] at this
        omega
  | succ k ih =>
    intro fuel n acc h1 h2
    cases fuel with
    | zero => omega
    | succ f =>
      have hdivge : 10 ^ k ≤ n / 10 := by
        rw [Nat.le_div_iff_mul_le (by norm_num)]
        calc 10 ^ k * 10 = 10 ^ (k + 1) := by ring
        _ ≤ n := h1
      have hdiv : ¬ (n / 10 = 0) := by
        have : 0 < 10 ^ k := Nat.pos_pow_of_pos k (by norm_num)
        omega
      simp only [Nat.toDigitsCore]
      rw [if_neg hdiv]
      have := ih f (n / 10) (Nat.digitChar (n % 10) :: acc) hdivge (by omega)
      simp only [List.length_cons] at this
      omega

theorem repr_length_lower (k n : Nat) (h : 10 ^ k ≤ n) :
    k + 1 ≤ (Nat.repr n).length := by
  have hk : k < n + 1 := by
    have h1 : k < 10 ^ k := Nat.lt_pow_self (by norm_num) k
    omega
  have := toDigitsCore_length_lower k (n + 1) n [] h hk
  simpa [Nat.repr, Nat.toDigits, String.length, List.asString] using this

/-- `f"{stem}_{counter}{suffix}"` (line 199). -/
def mkCand (stem suffix : String) (k : Nat) : String :=
  stem ++ "_" ++ Nat.repr k ++ suffix

theorem le_foldr_max (l : List Nat) (x : Nat) (hx : x ∈ l) : x ≤ l.foldr max 0 := by
  induction l with
  | nil => cases hx
  | cons a as ih =>
    rcases List.mem_cons.mp hx with rfl | h
    · exact le_max_left _ _
    · exact le_trans (ih h) (le_max_right _ _)

/-- Fuel sufficient for the collision loop: by the time the counter
reaches `10^(max name length)` the candidate is longer than every name in
the target directory. -/
def nameFuel (names : List String) : Nat :=
  2 + 10 ^ ((names.map String.length).foldr max 0)

theorem exists_free_cand (names : List String) (stem suffix : String) :
    ∃ i, i + 1 < nameFuel names ∧ mkCand stem suffix (1 + i) ∉ names := by
  set L := (names.map String.length).foldr max 0 with hL
  refine ⟨10 ^ L - 1, ?_, ?_⟩
  · have h1 : 1 ≤ 10 ^ L := Nat.one_le_pow L 10 (by norm_num)
    rw [nameFuel, ← hL]
    omega
  · have hcand : 1 + (10 ^ L - 1) = 10 ^ L := by
      have : 1 ≤ 10 ^ L := Nat.one_le_pow L 10 (by norm_num)
      omega
    rw [hcand]
    intro hmem
    have hlen : (mkCand stem suffix (10 ^ L)).length ≤ L :=
      le_foldr_max _ _ (List.mem_map_of_mem String.length hmem)
    have hrepr : L + 1 ≤ (Nat.repr (10 ^ L)).length :=
      repr_length_lower L (10 ^ L) (le_refl _)
    have hsplit : (Nat.repr (10 ^ L)).length ≤ (mkCand stem suffix (10 ^ L)).length := by
      simp [mkCand, String.length_append]
      omega
    omega

/-- The `while (target_path / new_name).exists()` loop of lines 195-200,
with fuel (`nameFuel` is enough fuel for the loop to find a free name, so
the fuel-exhausted branch is unreachable). -/
def newNameLoop (names : List String) (stem suffix : String) :
    Nat → Nat → String → String
  | 0, _, new_name => new_name
  | fuel + 1, counter, new_name =>
    if new_name ∈ names then
      newNameLoop names stem suffix fuel (counter + 1) (mkCand stem suffix counter)
    else new_name

/-- Lines 194-202: the collision-safe destination name for one move,
computed against the target directory contents at that moment. -/
def newNameFor (names : List String) (name stem suffix : String) : String :=
  newNameLoop names stem suffix (nameFuel names) 1 name

theorem newNameLoop_not_mem (names : List String) (stem suffix : String) :
    ∀ (fuel counter : Nat) (cur : String),
    (cur ∉ names ∨ ∃ i, i + 1 < fuel ∧ mkCand stem suffix (counter + i) ∉ names) →
    newNameLoop names stem suffix fuel counter cur ∉ names := by
  intro fuel
  induction fuel with
  | zero =>
    intro counter cur h
    rcases h with h | ⟨i, hi, _⟩
    · exact h
    · omega
  | succ f ih =>
    intro counter cur h
    rw [newNameLoop]
    by_cases hcur : cur ∈ names
    · rw [if_pos hcur]
      apply ih
      rcases h with h | ⟨i, hi, hfree⟩
      · exact absurd hcur h
      · cases i with
        | zero =>
          rw [Nat.add_zero] at hfree
          exact .inl hfree
        | succ i2 =>
          right
          refine ⟨i2, by omega, ?_⟩
          have harith : counter + (i2 + 1) = counter + 1 + i2 := by omega
          rwa [harith] at hfree
    · rw [if_neg hcur]
      exact hcur

theorem newNameLoop_spec (names : List String) (stem suffix : String) :
    ∀ (fuel counter : Nat) (cur : String),
    (∃ i, i + 1 < fuel ∧ mkCand stem suffix (counter + i) ∉ names) →
    cur ∈ names →
    ∃ k, counter ≤ k ∧
      newNameLoop names stem suffix fuel counter cur = mkCand stem suffix k ∧
      mkCand stem suffix k ∉ names ∧
      ∀ j, counter ≤ j → j < k → mkCand stem suffix j ∈ names := by
  intro fuel
  induction fuel with
  | zero =>
    rintro counter cur ⟨i, hi, _⟩ _
    omega
  | succ f ih =>
    intro counter cur hex hcur
    rw [newNameLoop, if_pos hcur]
    by_cases hc : mkCand stem suffix counter ∈ names
    · obtain ⟨i, hi, hfree⟩ := hex
      have hex2 : ∃ i2, i2 + 1 < f ∧ mkCand stem suffix (counter + 1 + i2) ∉ names := by
        cases i with
        | zero =>
          rw [Nat.add_zero] at hfree
          exact absurd hc hfree
        | succ i2 =>
          refine ⟨i2, by omega, ?_⟩
          have harith : counter + (i2 + 1) = counter + 1 + i2 := by omega
          rwa [harith] at hfree
      obtain ⟨k, hk1, hk2, hk3, hk4⟩ := ih (counter + 1) (mkCand stem suffix counter) hex2 hc
      refine ⟨k, by omega, hk2, hk3, ?_⟩
      intro j hj1 hj2
      by_cases hj : j = counter
      · subst hj
        exact hc
      · exact hk4 j (by omega) hj2
    · refine ⟨counter, le_refl _, ?_, hc, fun j hj1 hj2 => absurd hj2 (by omega)⟩
      cases f with
      | zero => rfl
      | succ f2 => rw [newNameLoop, if_neg hc]

/-- Specification of the collision-avoidance naming: the chosen name is
free; it is the base name when that is free, and otherwise the first
suffixed candidate `stem_k+suffix` (k ≥ 1) that is free, every earlier
candidate being occupied. -/
theorem newNameFor_spec (names : List String) (name stem suffix : String) :
    newNameFor names name stem suffix ∉ names ∧
    (name ∉ names → newNameFor names name stem suffix = name) ∧
    (name ∈ names → ∃ k, 1 ≤ k ∧
      newNameFor names name stem suffix = mkCand stem suffix k ∧
      mkCand stem suffix k ∉ names ∧
      ∀ j, 1 ≤ j → j < k → mkCand stem suffix j ∈ names) := by
  obtain ⟨i0, hi0, hfree0⟩ := exists_free_cand names stem suffix
  refine ⟨?_, ?_, ?_⟩
  · apply newNameLoop_not_mem
    exact .inr ⟨i0, hi0, hfree0⟩
  · intro hn
    rw [newNameFor]
    have h2 : ∃ f, nameFuel names = f + 1 := by
      rw [nameFuel]
      exact ⟨1 + 10 ^ ((names.map String.length).foldr max 0), by omega⟩
    obtain ⟨f, hf⟩ := h2
    rw [hf, newNameLoop, if_neg hn]
  · intro hn
    exact newNameLoop_spec names stem suffix (nameFuel names) 1 name ⟨i0, hi0, hfree0⟩ hn

/-- `PurePath.name` for the plain file paths handled here. -/
def pathName (p : String) : String := basename p

/-- Index of the last `'.'` in a character list, if any. -/
def lastDotIdx (l : List Char) : Option Nat :=
  ((l.enum.filter (fun q => q.2 = '.')).getLast?).map Prod.fst

/-- `PurePath.suffix`: the final extension including the dot, empty when
the last dot is leading or trailing. -/
def pathSuffix (p : String) : String :=
  let name := (basename p).data
  match lastDotIdx name with
  | some i => if 0 < i ∧ i < name.length - 1 then String.mk (name.drop i) else ""
  | none => ""

/-- `PurePath.stem`: the file name without its final extension. -/
def pathStem (p : String) : String :=
  let name := (basename p).data
  match lastDotIdx name with
  | some i => if 0 < i ∧ i < name.length - 1 then String.mk (name.take i) else String.mk name
  | none => String.mk name

/-- State threaded through the move loops.  `moved` is instrumentation:
each successful `shutil.move` is recorded with its source record, chosen
destination name, and the target-directory contents at the time of the
collision check.  `names` is the current content of the target directory
(initially whatever the caller's filesystem holds there); only an actual
move adds a name, so in dry-run mode the contents never change, exactly as
on a real filesystem.  The model assumes the moved sources live outside
the target directory (the tool's quarantine use case). -/
structure MvState where
  moved : List (FInfo × String × List String)
  names : List String
  moved_count : Nat
  printed : List String
  deriving Repr, DecidableEq

/-- Lines 193-214: one candidate of `files[1:]`.  `mvErr` is the oracle
for a `shutil.move` `OSError` (lines 213-214): the error is printed and
the file is not counted. -/
def mvFile (dry_run : Bool) (mvErr : String → Option String) (target : String)
    (st : MvState) (fi : FInfo) : MvState :=
  let new_name := newNameFor st.names (pathName fi.path) (pathStem fi.path) (pathSuffix fi.path)
  let new_path := target ++ "/" ++ new_name
  if dry_run = false then
    match mvErr fi.path with
    | some m =>
      { st with printed := st.printed ++ ["Error moving " ++ fi.path ++ ": " ++ m] }
    | none =>
      { st with moved := st.moved ++ [(fi, new_name, st.names)],
                names := st.names ++ [new_name],
                moved_count := st.moved_count + 1,
                printed := st.printed ++ ["Moved: " ++ fi.path ++ " -> " ++ new_path] }
  else
    { st with moved_count := st.moved_count + 1,
              printed := st.printed ++ ["Would move: " ++ fi.path ++ " -> " ++ new_path] }

/-- `DuplicateFileFinder.move_duplicates_to_folder` (lines 175-217):
skip the first (original) member of each group and move the rest into the
target directory, computing a collision-free name immediately before each
move. -/
def move_duplicates_to_folder (duplicates : List (String × List FInfo)) (target : String)
    (initNames : List String) (dry_run : Bool) (mvErr : String → Option String) : MvState :=
  duplicates.foldl (fun st g => (g.2.drop 1).foldl (mvFile dry_run mvErr target) st)
    ⟨[], initNames, 0, []⟩

/-- The completion report of lines 216-217: the action word, the count and
the target folder — the source prints no byte total here. -/
def mvReport (st : MvState) (dry_run : Bool) (target : String) : String :=
  (if dry_run then "Would move" else "Moved") ++ " " ++ Nat.repr st.moved_count ++
    " duplicate files to " ++ target

theorem mvFile_moved_sub (dry_run : Bool) (mvErr : String → Option String)
    (target : String) (st : MvState) (fi : FInfo) :
    (mvFile dry_run mvErr target st fi).moved = st.moved ∨
    (mvFile dry_run mvErr target st fi).moved =
      st.moved ++ [(fi, newNameFor st.names (pathName fi.path) (pathStem fi.path)
        (pathSuffix fi.path), st.names)] := by
  simp only [mvFile]
  by_cases hd : dry_run = false
  · rw [if_pos hd]
    cases mvErr fi.path with
    | some m => exact .inl rfl
    | none => exact .inr rfl
  · rw [if_neg hd]
    exact .inl rfl

theorem mvFile_count_inv {dry_run : Bool} {mvErr : String → Option String}
    {target : String} {st : MvState} {fi : FInfo} (hd : dry_run = false)
    (h : st.moved_count = st.moved.length) :
    (mvFile dry_run mvErr target st fi).moved_count =
      (mvFile dry_run mvErr target st fi).moved.length := by
  simp only [mvFile]
  rw [if_pos hd]
  cases mvErr fi.path with
  | some m => simpa using h
  | none => simp [h]

/-- Every recorded move used the collision-avoiding name computed against
the directory contents stored with it. -/
def MvGood (st : MvState) : Prop :=
  ∀ m ∈ st.moved,
    m.2.1 = newNameFor m.2.2 (pathName m.1.path) (pathStem m.1.path) (pathSuffix m.1.path)

theorem mvFile_good {dry_run : Bool} {mvErr : String → Option String}
    {target : String} {st : MvState} {fi : FInfo} (h : MvGood st) :
    MvGood (mvFile dry_run mvErr target st fi) := by
  intro m hm
  rcases mvFile_moved_sub dry_run mvErr target st fi with he | he
  · exact h m (he ▸ hm)
  · rw [he] at hm
    rcases List.mem_append.mp hm with h2 | h2
    · exact h m h2
    · have : m = (fi, newNameFor st.names (pathName fi.path) (pathStem fi.path)
          (pathSuffix fi.path), st.names) := by simpa using h2
      rw [this]

theorem foldl_mvFile_good {dry_run : Bool} {mvErr : String → Option String}
    {target : String} :
    ∀ (l : List FInfo) (st : MvState), MvGood st →
    MvGood (l.foldl (mvFile dry_run mvErr target) st) := by
  intro l
  induction l with
  | nil => intro st h; exact h
  | cons fi rest ih => intro st h; exact ih _ (mvFile_good h)

theorem foldl_mvFile_count {dry_run : Bool} {mvErr : String → Option String}
    {target : String} (hd : dry_run = false) :
    ∀ (l : List FInfo) (st : MvState), st.moved_count = st.moved.length →
    (l.foldl (mvFile dry_run mvErr target) st).moved_count =
      (l.foldl (mvFile dry_run mvErr target) st).moved.length := by
  intro l
  induction l with
  | nil => intro st h; exact h
  | cons fi rest ih => intro st h; exact ih _ (mvFile_count_inv hd h)

theorem foldl_mvFile_mem {dry_run : Bool} {mvErr : String → Option String}
    {target : String} :
    ∀ (l : List FInfo) (st : MvState) (m : FInfo × String × List String),
    m ∈ (l.foldl (mvFile dry_run mvErr target) st).moved →
    m ∈ st.moved ∨ m.1 ∈ l := by
  intro l
  induction l with
  | nil => intro st m h; exact .inl h
  | cons fi rest ih =>
    intro st m hm
    rcases ih (mvFile dry_run mvErr target st fi) m hm with h | h
    · rcases mvFile_moved_sub dry_run mvErr target st fi with he | he
      · rw [he] at h; exact .inl h
      · rw [he] at h
        rcases List.mem_append.mp h with h2 | h2
        · exact .inl h2
        · have hx : m = (fi, newNameFor st.names (pathName fi.path) (pathStem fi.path)
              (pathSuffix fi.path), st.names) := by simpa using h2
          exact .inr (by rw [hx]; exact List.mem_cons_self fi rest)
    · exact .inr (List.mem_cons_of_mem fi h)

/-- Group-level membership for the whole move run. -/
theorem move_duplicates_moved_mem (duplicates : List (String × List FInfo))
    (target : String) (initNames : List String) (dry_run : Bool)
    (mvErr : String → Option String) :
    ∀ m ∈ (move_duplicates_to_folder duplicates target initNames dry_run mvErr).moved,
      ∃ g ∈ duplicates, m.1 ∈ g.2.drop 1 := by
  rw [move_duplicates_to_folder]
  have main : ∀ (ds : List (String × List FInfo)) (st : MvState)
      (m : FInfo × String × List String),
      m ∈ (ds.foldl (fun st g => (g.2.drop 1).foldl (mvFile dry_run mvErr target) st) st).moved →
      m ∈ st.moved ∨ ∃ g ∈ ds, m.1 ∈ g.2.drop 1 := by
    intro ds
    induction ds with
    | nil => intro st m h; exact .inl h
    | cons g rest ih =>
      intro st m hm
      rcases ih _ m hm with h | ⟨g2, hg2, h2⟩
      · rcases foldl_mvFile_mem (g.2.drop 1) st m h with h3 | h3
        · exact .inl h3
        · exact .inr ⟨g, List.mem_cons_self g rest, h3⟩
      · exact .inr ⟨g2, List.mem_cons_of_mem g hg2, h2⟩
  intro m hm
  rcases main duplicates ⟨[], initNames, 0, []⟩ m hm with h | h
  · cases h
  · exact h

/-- Group-level membership for the whole removal run. -/
theorem remove_duplicates_mem (duplicates : List (String × List FInfo))
    (interactive dry_run : Bool) (resp : Nat → String)
    (unlinkErr : String → Option String) (st : RmState)
    (hok : remove_duplicates duplicates interactive dry_run resp unlinkErr = .ok st) :
    (∀ x ∈ st.deleted, ∃ g ∈ duplicates, x ∈ g.2.drop 1) ∧
    (∀ x ∈ st.counted, ∃ g ∈ duplicates, x ∈ g.2.drop 1) := by
  have main : ∀ (ds : List (String × List FInfo)) (st0 st1 : RmState),
      ds.foldlM (fun st g =>
        match g.2 with
        | [] => Except.error (PyErr.indexError "list index out of range")
        | _ :: dups => Except.ok (dups.foldl (rmFile interactive dry_run resp unlinkErr) st))
        st0 = .ok st1 →
      (∀ x ∈ st1.deleted, x ∈ st0.deleted ∨ ∃ g ∈ ds, x ∈ g.2.drop 1) ∧
      (∀ x ∈ st1.counted, x ∈ st0.counted ∨ ∃ g ∈ ds, x ∈ g.2.drop 1) := by
    intro ds
    induction ds with
    | nil =>
      intro st0 st1 h
      have he : st0 = st1 := Except.ok.inj h
      subst he
      exact ⟨fun x hx => .inl hx, fun x hx => .inl hx⟩
    | cons g rest ih =>
      intro st0 st1 h
      rw [List.foldlM_cons] at h
      cases hg : g.2 with
      | nil =>
        rw [hg] at h
        cases h
      | cons orig dups =>
        rw [hg] at h
        have h2 : List.foldlM (fun st g =>
            match g.2 with
            | [] => Except.error (PyErr.indexError "list index out of range")
            | _ :: dups => Except.ok (dups.foldl (rmFile interactive dry_run resp unlinkErr) st))
            (dups.foldl (rmFile interactive dry_run resp unlinkErr) st0) rest = .ok st1 := h
        obtain ⟨ihd, ihc⟩ := ih _ _ h2
        constructor
        · intro x hx
          rcases ihd x hx with h3 | h3
          · rcases (foldl_rmFile_mem dups st0 x).1 h3 with h4 | h4
            · exact .inl h4
            · exact .inr ⟨g, List.mem_cons_self g rest, by rw [hg]; simpa using h4⟩
          · obtain ⟨g2, hg2, h4⟩ := h3
            exact .inr ⟨g2, List.mem_cons_of_mem g hg2, h4⟩
        · intro x hx
          rcases ihc x hx with h3 | h3
          · rcases (foldl_rmFile_mem dups st0 x).2 h3 with h4 | h4
            · exact .inl h4
            · exact .inr ⟨g, List.mem_cons_self g rest, by rw [hg]; simpa using h4⟩
          · obtain ⟨g2, hg2, h4⟩ := h3
            exact .inr ⟨g2, List.mem_cons_of_mem g hg2, h4⟩
  rw [remove_duplicates] at hok
  obtain ⟨hd, hc⟩ := main duplicates ⟨[], [], 0, 0, 0, false⟩ st hok
  constructor
  · intro x hx
    rcases hd x hx with h | h
    · cases h
    · exact h
  · intro x hx
    rcases hc x hx with h | h
    · cases h
    · exact h

/-- With pairwise-distinct member paths (as produced by a real scan), the
path of a group's first member never occurs among the non-first members of
any group. -/
theorem head_not_in_tails {duplicates : List (String × List FInfo)}
    (hnd : (((duplicates.map (fun g => g.2)).flatten).map (fun fi => fi.path)).Nodup)
    {g : String × List FInfo} (hg : g ∈ duplicates) {fi : FInfo} {rest2 : List FInfo}
    (hfi : g.2 = fi :: rest2) :
    ∀ fj, (∃ g2 ∈ duplicates, fj ∈ g2.2.drop 1) → fj.path ≠ fi.path := by
  obtain ⟨s, t, rfl⟩ := List.append_of_mem hg
  have hdecomp : (((s ++ g :: t).map (fun g => g.2)).flatten).map (fun fi => fi.path) =
      ((s.map (fun g => g.2)).flatten).map (fun fi => fi.path) ++
      ((fi.path :: rest2.map (fun fi => fi.path)) ++
        ((t.map (fun g => g.2)).flatten).map (fun fi => fi.path)) := by
    rw [List.map_append, List.map_cons, hfi]
    simp
  rw [hdecomp] at hnd
  rw [List.nodup_append] at hnd
  obtain ⟨hnds, hnd2, hdisj⟩ := hnd
  rw [List.nodup_append] at hnd2
  obtain ⟨hndmid, hndt, hdisj2⟩ := hnd2
  have hfiS : fi.path ∉ ((s.map (fun g => g.2)).flatten).map (fun fi => fi.path) := by
    intro hmem
    exact hdisj hmem (by simp)
  have hfiR : fi.path ∉ rest2.map (fun fi => fi.path) :=
    (List.nodup_cons.mp hndmid).1
  have hfiT : fi.path ∉ ((t.map (fun g => g.2)).flatten).map (fun fi => fi.path) := by
    intro hmem
    exact hdisj2 (by simp) hmem
  rintro fj ⟨g2, hg2, hfj⟩ heq
  have hfj2 : fj ∈ g2.2 := List.drop_subset 1 g2.2 hfj
  rcases List.mem_append.mp hg2 with hs | hgt
  · exact hfiS (heq ▸ List.mem_map_of_mem _
      (List.mem_flatten.mpr ⟨g2.2, List.mem_map_of_mem _ hs, hfj2⟩))
  · rcases List.mem_cons.mp hgt with rfl | ht
    · have : fj ∈ rest2 := by
        rw [hfi] at hfj
        simpa using hfj
      exact hfiR (heq ▸ List.mem_map_of_mem _ this)
    · exact hfiT (heq ▸ List.mem_map_of_mem _
        (List.mem_flatten.mpr ⟨g2.2, List.mem_map_of_mem _ ht, hfj2⟩))

/-- The C8 invariant holds at the end of a successful removal run. -/
theorem remove_duplicates_inv (duplicates : List (String × List FInfo))
    (interactive dry_run : Bool) (resp : Nat → String)
    (unlinkErr : String → Option String) (st : RmState)
    (hok : remove_duplicates duplicates interactive dry_run resp unlinkErr = .ok st) :
    RmInv dry_run st := by
  have main : ∀ (ds : List (String × List FInfo)) (st0 st1 : RmState),
      RmInv dry_run st0 →
      ds.foldlM (fun st g =>
        match g.2 with
        | [] => Except.error (PyErr.indexError "list index out of range")
        | _ :: dups => Except.ok (dups.foldl (rmFile interactive dry_run resp unlinkErr) st))
        st0 = .ok st1 →
      RmInv dry_run st1 := by
    intro ds
    induction ds with
    | nil =>
      intro st0 st1 h0 h
      have he : st0 = st1 := Except.ok.inj h
      exact he ▸ h0
    | cons g rest ih =>
      intro st0 st1 h0 h
      rw [List.foldlM_cons] at h
      cases hg : g.2 with
      | nil => rw [hg] at h; cases h
      | cons orig dups =>
        rw [hg] at h
        exact ih _ _ (foldl_rmFile_inv dups st0 h0) h
  rw [remove_duplicates] at hok
  exact main duplicates ⟨[], [], 0, 0, 0, false⟩ st (by refine ⟨rfl, rfl, fun _ => rfl⟩) hok

/-! ## Claims C7-C9: the resolution policies -/

/-- C7: under both policies, in every combination of dry-run and
interactive modes, every file acted upon (deleted, counted, or moved) is a
non-first member of its group (`files[1:]`), and — when member paths are
pairwise distinct, as on a real filesystem scan — the path of a group's
first member (the oldest, given C4's ordering) is never deleted and never
moved. -/
theorem claim_C7 :
    (∀ (duplicates : List (String × List FInfo)) (interactive dry_run : Bool)
        (resp : Nat → String) (unlinkErr : String → Option String) (st : RmState),
      remove_duplicates duplicates interactive dry_run resp unlinkErr = .ok st →
      ∀ x ∈ st.deleted, ∃ g ∈ duplicates, x ∈ g.2.drop 1) ∧
    (∀ (duplicates : List (String × List FInfo)) (target : String)
        (initNames : List String) (dry_run : Bool) (mvErr : String → Option String),
      ∀ m ∈ (move_duplicates_to_folder duplicates target initNames dry_run mvErr).moved,
        ∃ g ∈ duplicates, m.1 ∈ g.2.drop 1) ∧
    (∀ (duplicates : List (String × List FInfo)),
      ((((duplicates.map (fun g => g.2)).flatten).map (fun fi => fi.path)).Nodup) →
      ∀ g ∈ duplicates, ∀ fi rest2, g.2 = fi :: rest2 →
        (∀ (interactive dry_run : Bool) (resp : Nat → String)
            (unlinkErr : String → Option String) (st : RmState),
          remove_duplicates duplicates interactive dry_run resp unlinkErr = .ok st →
          ∀ x ∈ st.deleted, x.path ≠ fi.path) ∧
        (∀ (target : String) (initNames : List String) (dry_run : Bool)
            (mvErr : String → Option String),
          ∀ m ∈ (move_duplicates_to_folder duplicates target initNames dry_run mvErr).moved,
            m.1.path ≠ fi.path)) := by
  refine ⟨?_, ?_, ?_⟩
  · intro duplicates interactive dry_run resp unlinkErr st hok x hx
    exact (remove_duplicates_mem duplicates interactive dry_run resp unlinkErr st hok).1 x hx
  · intro duplicates target initNames dry_run mvErr m hm
    exact move_duplicates_moved_mem duplicates target initNames dry_run mvErr m hm
  · intro duplicates hnd g hg fi rest2 hfi
    constructor
    · intro interactive dry_run resp unlinkErr st hok x hx
      exact head_not_in_tails hnd hg hfi x
        ((remove_duplicates_mem duplicates interactive dry_run resp unlinkErr st hok).1 x hx)
    · intro target initNames dry_run mvErr m hm
      exact head_not_in_tails hnd hg hfi m.1
        (move_duplicates_moved_mem duplicates target initNames dry_run mvErr m hm)

/-- Witness for C7 at a concrete duplicate set. -/
theorem claim_C7_witness :
    (remove_duplicates [("h", [⟨"o", 1, 1⟩, ⟨"a", 2, 2⟩, ⟨"b", 3, 3⟩])]
        false false (fun _ => "") (fun _ => none) =
      .ok ⟨[⟨"a", 2, 2⟩, ⟨"b", 3, 3⟩], [⟨"a", 2, 2⟩, ⟨"b", 3, 3⟩], 2, 5, 0, false⟩) ∧
    (∀ x ∈ (⟨[⟨"a", 2, 2⟩, ⟨"b", 3, 3⟩], [⟨"a", 2, 2⟩, ⟨"b", 3, 3⟩], 2, 5, 0,
        false⟩ : RmState).deleted,
      ∃ g ∈ [("h", [(⟨"o", 1, 1⟩ : FInfo), ⟨"a", 2, 2⟩, ⟨"b", 3, 3⟩])], x ∈ g.2.drop 1) ∧
    (∀ x ∈ (⟨[⟨"a", 2, 2⟩, ⟨"b", 3, 3⟩], [⟨"a", 2, 2⟩, ⟨"b", 3, 3⟩], 2, 5, 0,
        false⟩ : RmState).deleted, x.path ≠ "o") ∧
    (∀ m ∈ (move_duplicates_to_folder [("h", [⟨"o", 1, 1⟩, ⟨"a", 2, 2⟩, ⟨"b", 3, 3⟩])]
        "q" [] false (fun _ => none)).moved,
      ∃ g ∈ [("h", [(⟨"o", 1, 1⟩ : FInfo), ⟨"a", 2, 2⟩, ⟨"b", 3, 3⟩])], m.1 ∈ g.2.drop 1) := by
  have hok : remove_duplicates [("h", [⟨"o", 1, 1⟩, ⟨"a", 2, 2⟩, ⟨"b", 3, 3⟩])]
      false false (fun _ => "") (fun _ => none) =
      .ok ⟨[⟨"a", 2, 2⟩, ⟨"b", 3, 3⟩], [⟨"a", 2, 2⟩, ⟨"b", 3, 3⟩], 2, 5, 0, false⟩ := by
    rfl
  refine ⟨hok, ?_, ?_, ?_⟩
  · exact claim_C7.1 _ false false (fun _ => "") (fun _ => none) _ hok
  · exact ((claim_C7.2.2 _ (by decide) ("h", [⟨"o", 1, 1⟩, ⟨"a", 2, 2⟩, ⟨"b", 3, 3⟩])
      (by decide) ⟨"o", 1, 1⟩ [⟨"a", 2, 2⟩, ⟨"b", 3, 3⟩] rfl).1
      false false (fun _ => "") (fun _ => none) _ hok)
  · exact claim_C7.2.1 _ "q" [] false (fun _ => none)

/-- C8 amended: the `remove` policy's completion report carries the count
of processed members and the byte total, which equals the summed sizes of
exactly the members for which the action (or its dry-run announcement)
succeeded — skipped, declined and failing members are not counted, and in
a non-dry-run the counted members are exactly those deleted.  The
`relocate` policy's completion report carries only the count of moved
members: no byte total is printed (see the counterexample). -/
theorem claim_C8 :
    (∀ (duplicates : List (String × List FInfo)) (interactive dry_run : Bool)
        (resp : Nat → String) (unlinkErr : String → Option String) (st : RmState),
      remove_duplicates duplicates interactive dry_run resp unlinkErr = .ok st →
        st.removed_count = st.counted.length ∧
        st.space_freed = sumSizes st.counted ∧
        (dry_run = false → st.counted = st.deleted) ∧
        (∀ x ∈ st.counted, ∃ g ∈ duplicates, x ∈ g.2.drop 1)) ∧
    (∀ (duplicates : List (String × List FInfo)) (target : String)
        (initNames : List String) (mvErr : String → Option String),
      (move_duplicates_to_folder duplicates target initNames false mvErr).moved_count =
        (move_duplicates_to_folder duplicates target initNames false mvErr).moved.length) := by
  constructor
  · intro duplicates interactive dry_run resp unlinkErr st hok
    obtain ⟨h1, h2, h3⟩ := remove_duplicates_inv duplicates interactive dry_run resp unlinkErr st hok
    exact ⟨h1, h2, h3,
      (remove_duplicates_mem duplicates interactive dry_run resp unlinkErr st hok).2⟩
  · intro duplicates target initNames mvErr
    rw [move_duplicates_to_folder]
    have main : ∀ (ds : List (String × List FInfo)) (st : MvState),
        st.moved_count = st.moved.length →
        (ds.foldl (fun st g => (g.2.drop 1).foldl (mvFile false mvErr target) st) st).moved_count =
        (ds.foldl (fun st g => (g.2.drop 1).foldl (mvFile false mvErr target) st) st).moved.length := by
      intro ds
      induction ds with
      | nil => intro st h; exact h
      | cons g rest ih =>
        intro st h
        exact ih _ (foldl_mvFile_count rfl (g.2.drop 1) st h)
    exact main duplicates ⟨[], initNames, 0, []⟩ rfl

/-- C8 as stated is false for the relocate policy: two runs whose acted-on
members differ only in size produce identical printed output and identical
completion reports, while the relocated byte totals differ — so the report
carries no byte total. -/
theorem claim_C8_counterexample :
    (move_duplicates_to_folder [("h", [⟨"o.txt", 1, 1⟩, ⟨"a/x.txt", 100, 2⟩])]
        "q" [] false (fun _ => none)).printed =
      (move_duplicates_to_folder [("h", [⟨"o.txt", 1, 1⟩, ⟨"a/x.txt", 999, 2⟩])]
        "q" [] false (fun _ => none)).printed ∧
    mvReport (move_duplicates_to_folder [("h", [⟨"o.txt", 1, 1⟩, ⟨"a/x.txt", 100, 2⟩])]
        "q" [] false (fun _ => none)) false "q" =
      mvReport (move_duplicates_to_folder [("h", [⟨"o.txt", 1, 1⟩, ⟨"a/x.txt", 999, 2⟩])]
        "q" [] false (fun _ => none)) false "q" ∧
    sumSizes ((move_duplicates_to_folder [("h", [⟨"o.txt", 1, 1⟩, ⟨"a/x.txt", 100, 2⟩])]
        "q" [] false (fun _ => none)).moved.map (fun m => m.1)) = 100 ∧
    sumSizes ((move_duplicates_to_folder [("h", [⟨"o.txt", 1, 1⟩, ⟨"a/x.txt", 999, 2⟩])]
        "q" [] false (fun _ => none)).moved.map (fun m => m.1)) = 999 := by
  refine ⟨rfl, rfl, rfl, rfl⟩

/-- Witness for the amended C8 at a concrete interactive run where one
member is declined and one deleted. -/
theorem claim_C8_witness :
    (remove_duplicates [("h", [⟨"o", 1, 1⟩, ⟨"a", 2, 2⟩, ⟨"b", 3, 3⟩])]
        true false (fun i => if i = 0 then "n" else "y") (fun _ => none) =
      .ok ⟨[⟨"b", 3, 3⟩], [⟨"b", 3, 3⟩], 1, 3, 2, false⟩) ∧
    (1 = ([(⟨"b", 3, 3⟩ : FInfo)]).length ∧
      3 = sumSizes [(⟨"b", 3, 3⟩ : FInfo)] ∧
      (false = false → ([(⟨"b", 3, 3⟩ : FInfo)]) = [⟨"b", 3, 3⟩]) ∧
      (∀ x ∈ [(⟨"b", 3, 3⟩ : FInfo)],
        ∃ g ∈ [("h", [(⟨"o", 1, 1⟩ : FInfo), ⟨"a", 2, 2⟩, ⟨"b", 3, 3⟩])], x ∈ g.2.drop 1)) := by
  have hok : remove_duplicates [("h", [⟨"o", 1, 1⟩, ⟨"a", 2, 2⟩, ⟨"b", 3, 3⟩])]
      true false (fun i => if i = 0 then "n" else "y") (fun _ => none) =
      .ok ⟨[⟨"b", 3, 3⟩], [⟨"b", 3, 3⟩], 1, 3, 2, false⟩ := by
    rfl
  exact ⟨hok, claim_C8.1 _ true false (fun i => if i = 0 then "n" else "y")
    (fun _ => none) _ hok⟩

theorem move_duplicates_good (duplicates : List (String × List FInfo)) (target : String)
    (initNames : List String) (dry_run : Bool) (mvErr : String → Option String) :
    MvGood (move_duplicates_to_folder duplicates target initNames dry_run mvErr) := by
  rw [move_duplicates_to_folder]
  have main : ∀ (ds : List (String × List FInfo)) (st : MvState), MvGood st →
      MvGood (ds.foldl (fun st g => (g.2.drop 1).foldl (mvFile dry_run mvErr target) st) st) := by
    intro ds
    induction ds with
    | nil => intro st h; exact h
    | cons g rest ih =>
      intro st h
      exact ih _ (foldl_mvFile_good (g.2.drop 1) st h)
  exact main duplicates ⟨[], initNames, 0, []⟩ (fun m hm => absurd hm (by simp))

/-- C9: every executed move's destination name was free in the target
directory at the moment of that move (never an overwrite), equal to the
plain base name when that is free, and otherwise the first free
`stem_k+suffix` candidate with every earlier candidate occupied; moving
two duplicates both named `dup.txt` into one empty target yields
`dup.txt` then `dup_1.txt`. -/
theorem claim_C9 :
    (∀ (duplicates : List (String × List FInfo)) (target : String)
        (initNames : List String) (dry_run : Bool) (mvErr : String → Option String),
      ∀ m ∈ (move_duplicates_to_folder duplicates target initNames dry_run mvErr).moved,
        m.2.1 ∉ m.2.2 ∧
        (pathName m.1.path ∉ m.2.2 → m.2.1 = pathName m.1.path) ∧
        (pathName m.1.path ∈ m.2.2 → ∃ k, 1 ≤ k ∧
          m.2.1 = mkCand (pathStem m.1.path) (pathSuffix m.1.path) k ∧
          mkCand (pathStem m.1.path) (pathSuffix m.1.path) k ∉ m.2.2 ∧
          ∀ j, 1 ≤ j → j < k →
            mkCand (pathStem m.1.path) (pathSuffix m.1.path) j ∈ m.2.2)) ∧
    ((move_duplicates_to_folder
        [("h", [⟨"keep/dup.txt", 5, 1⟩, ⟨"a/dup.txt", 5, 2⟩, ⟨"b/dup.txt", 5, 3⟩])]
        "quarantine" [] false (fun _ => none)).moved.map (fun m => m.2.1) =
      ["dup.txt", "dup_1.txt"]) := by
  constructor
  · intro duplicates target initNames dry_run mvErr m hm
    have hgood := move_duplicates_good duplicates target initNames dry_run mvErr m hm
    obtain ⟨hfree, hkeep, hsuffixed⟩ :=
      newNameFor_spec m.2.2 (pathName m.1.path) (pathStem m.1.path) (pathSuffix m.1.path)
    exact ⟨hgood ▸ hfree, fun h => hgood.trans (hkeep h), fun h => hgood ▸ hsuffixed h⟩
  · rfl

/-- Witness for C9: the second move of the `dup.txt` scenario collides and
receives the first suffixed candidate. -/
theorem claim_C9_witness :
    ((⟨"b/dup.txt", 5, 3⟩, "dup_1.txt", ["dup.txt"]) ∈ (move_duplicates_to_folder
        [("h", [⟨"keep/dup.txt", 5, 1⟩, ⟨"a/dup.txt", 5, 2⟩, ⟨"b/dup.txt", 5, 3⟩])]
        "quarantine" [] false (fun _ => none)).moved ∧
      pathName "b/dup.txt" ∈ ["dup.txt"]) ∧
    ("dup_1.txt" ∉ ["dup.txt"] ∧
      ∃ k, 1 ≤ k ∧
        "dup_1.txt" = mkCand (pathStem "b/dup.txt") (pathSuffix "b/dup.txt") k ∧
        mkCand (pathStem "b/dup.txt") (pathSuffix "b/dup.txt") k ∉ ["dup.txt"] ∧
        ∀ j, 1 ≤ j → j < k →
          mkCand (pathStem "b/dup.txt") (pathSuffix "b/dup.txt") j ∈ ["dup.txt"]) := by
  have hm : ((⟨"b/dup.txt", 5, 3⟩, "dup_1.txt", ["dup.txt"]) :
      FInfo × String × List String) ∈ (move_duplicates_to_folder
        [("h", [⟨"keep/dup.txt", 5, 1⟩, ⟨"a/dup.txt", 5, 2⟩, ⟨"b/dup.txt", 5, 3⟩])]
        "quarantine" [] false (fun _ => none)).moved := by
    decide
  have h := claim_C9.1
    [("h", [⟨"keep/dup.txt", 5, 1⟩, ⟨"a/dup.txt", 5, 2⟩, ⟨"b/dup.txt", 5, 3⟩])]
    "quarantine" [] false (fun _ => none) _ hm
  exact ⟨⟨hm, by decide⟩, h.1, h.2.2 (by decide)⟩

/-! ## Claim C10: the line-oriented manifest parser
(`FileHasher._parse_simple_hash_file`, lines 194-209) -/

/-- Python `str.isspace` members relevant to `strip()`/`split()` (ASCII
whitespace; the unicode space classes do not occur in checksum files). -/
def pyIsSpace (c : Char) : Bool :=
  c == ' ' || c == '\t' || c == '\n' || c == '\r' || c == '\x0B' || c == '\x0C'

/-- Python `str.strip()`: drop leading and trailing whitespace. -/
def pyStrip (s : String) : String :=
  String.mk (((s.data.dropWhile pyIsSpace).reverse.dropWhile pyIsSpace).reverse)

/-- Split a character list at every occurrence of `sep`
(`str.split(sep)` semantics: n separators yield n+1 pieces). -/
def splitOnCharL (sep : Char) : List Char → List (List Char)
  | [] => [[]]
  | c :: cs =>
    match splitOnCharL sep cs with
    | [] => [[]]
    | y :: ys => if c = sep then [] :: y :: ys else (c :: y) :: ys

/-- `content.split('\n')`. -/
def splitOnNL (s : String) : List String :=
  (splitOnCharL '\n' s.data).map String.mk

/-- `s.startswith(c)` for a single-character prefix. -/
def startsWith1 (c : Char) (s : String) : Bool :=
  match s.data with
  | [] => false
  | x :: _ => x == c

/-- Python `line.split(None, 1)`: skip leading whitespace, take the first
whitespace-free token, then the remainder with its leading whitespace
removed (kept verbatim otherwise, so paths may contain spaces).  Yields
`[]`, `[tok]` or `[tok, rest]`. -/
def pySplitWS1 (s : String) : List String :=
  let cs := s.data.dropWhile pyIsSpace
  if cs = [] then []
  else
    let tok := cs.takeWhile (fun c => !(pyIsSpace c))
    let rest := (cs.dropWhile (fun c => !(pyIsSpace c))).dropWhile pyIsSpace
    if rest = [] then [String.mk tok] else [String.mk tok, String.mk rest]

/-- `FileHasher._parse_simple_hash_file` (lines 194-209): per stripped
line, skip blank and comment lines, split into at most two
whitespace-separated fields, keep the two-field lines as
`{'filepath': ..., 'hash': ...}` records with one leading `'*'` stripped
from the path.  The comment-marker literal at line 198 is truncated in the
provided source (`line.startswith('`); modelled from the spec: a
"non-comment" line in conventional checksum-file layout, i.e. the marker
is the character `'#'`. -/
def _parse_simple_hash_file (content : String) : List PEntry :=
  (splitOnNL (pyStrip content)).foldl
    (fun results rawline =>
      let line := pyStrip rawline
      if line = "" then results
      else if startsWith1 '#' line then results
      else
        match pySplitWS1 line with
        | [hash_value, filepath] =>
          results ++ [⟨some (if startsWith1 '*' filepath
            then String.mk (filepath.data.drop 1) else filepath), none, none, some hash_value⟩]
        | _ => results)
    []

/-- The per-line behavior asserted by the claim, as a function: an entry
for a line with exactly two whitespace-separated fields (digest then path,
one leading `'*'` stripped), nothing — and no error — for every other
line. -/
def parseLineSpec (rawline : String) : Option PEntry :=
  let line := pyStrip rawline
  if line = "" then none
  else if startsWith1 '#' line then none
  else
    match pySplitWS1 line with
    | [hash_value, filepath] =>
      some ⟨some (if startsWith1 '*' filepath
        then String.mk (filepath.data.drop 1) else filepath), none, none, some hash_value⟩
    | _ => none

theorem parse_body_eq (results : List PEntry) (rawline : String) :
    (if pyStrip rawline = "" then results
     else if startsWith1 '#' (pyStrip rawline) then results
     else
       match pySplitWS1 (pyStrip rawline) with
       | [hash_value, filepath] =>
         results ++ [⟨some (if startsWith1 '*' filepath
           then String.mk (filepath.data.drop 1) else filepath), none, none, some hash_value⟩]
       | _ => results) =
    (match parseLineSpec rawline with
     | some e => results ++ [e]
     | none => results) := by
  rw [parseLineSpec]
  by_cases h1 : pyStrip rawline = ""
  · simp [h1]
  · rw [if_neg h1, if_neg h1]
    by_cases h2 : startsWith1 '#' (pyStrip rawline) = true
    · simp [h2]
    · have h2f : startsWith1 '#' (pyStrip rawline) = false := by
        cases hb : startsWith1 '#' (pyStrip rawline) with
        | false => rfl
        | true => exact absurd hb h2
      rw [if_neg (by simp [h2f]), if_neg (by simp [h2f])]
      cases hs : pySplitWS1 (pyStrip rawline) with
      | nil => rfl
      | cons a l1 =>
        cases l1 with
        | nil => rfl
        | cons b l2 =>
          cases l2 with
          | nil => rfl
          | cons c l3 => rfl

theorem parse_foldl_filterMap :
    ∀ (lines : List String) (init : List PEntry),
    lines.foldl
      (fun results rawline =>
        if pyStrip rawline = "" then results
        else if startsWith1 '#' (pyStrip rawline) then results
        else
          match pySplitWS1 (pyStrip rawline) with
          | [hash_value, filepath] =>
            results ++ [⟨some (if startsWith1 '*' filepath
              then String.mk (filepath.data.drop 1) else filepath), none, none, some hash_value⟩]
          | _ => results) init =
      init ++ lines.filterMap parseLineSpec := by
  intro lines
  induction lines with
  | nil => intro init; simp
  | cons l rest ih =>
    intro init
    rw [List.foldl_cons, ih, List.filterMap_cons, parse_body_eq]
    cases parseLineSpec l with
    | none => rfl
    | some e => simp

/-- C10: the parser produces, in line order, exactly one entry per line
that (after stripping) is neither blank nor a comment and splits under
`split(None, 1)` into exactly two fields — the digest then the path, with
one leading `'*'` stripped from the path — and silently produces no entry
and no error for every other line. -/
theorem claim_C10 (content : String) :
    _parse_simple_hash_file content =
      (splitOnNL (pyStrip content)).filterMap parseLineSpec ∧
    (∀ rawline : String,
      (pyStrip rawline = "" ∨ startsWith1 '#' (pyStrip rawline) = true ∨
        (pySplitWS1 (pyStrip rawline)).length ≠ 2) →
      parseLineSpec rawline = none) ∧
    (∀ (rawline h p : String), pySplitWS1 (pyStrip rawline) = [h, p] →
      pyStrip rawline ≠ "" → startsWith1 '#' (pyStrip rawline) = false →
      parseLineSpec rawline = some ⟨some (if startsWith1 '*' p
        then String.mk (p.data.drop 1) else p), none, none, some h⟩) := by
  refine ⟨?_, ?_, ?_⟩
  · rw [_parse_simple_hash_file, parse_foldl_filterMap]
    rfl
  · intro rawline hcond
    rw [parseLineSpec]
    by_cases h1 : pyStrip rawline = ""
    · simp [h1]
    · rw [if_neg h1]
      by_cases h2 : startsWith1 '#' (pyStrip rawline) = true
      · simp [h2]
      · rw [if_neg (by simp [h2])]
        rcases hcond with hc | hc | hc
        · exact absurd hc h1
        · exact absurd hc h2
        · cases hs : pySplitWS1 (pyStrip rawline) with
          | nil => rfl
          | cons a l1 =>
            cases l1 with
            | nil => rfl
            | cons b l2 =>
              cases l2 with
              | nil => exact absurd (by rw [hs]; rfl) hc
              | cons c l3 => rfl
  · intro rawline h p hsplit h1 h2
    rw [parseLineSpec, if_neg h1, if_neg (by simp [h2]), hsplit]

/-- Witness for C10 at a concrete manifest text containing a valid line, a
comment, a blank line, a path with an internal space and a star marker,
and a one-field line. -/
theorem claim_C10_witness :
    (_parse_simple_hash_file "d1 f1\n# c\n\nd2  *f 2\nsingle" =
      (splitOnNL (pyStrip "d1 f1\n# c\n\nd2  *f 2\nsingle")).filterMap parseLineSpec) ∧
    (pySplitWS1 (pyStrip "d2  *f 2") = ["d2", "*f 2"] ∧
      parseLineSpec "d2  *f 2" = some ⟨some "f 2", none, none, some "d2"⟩) ∧
    parseLineSpec "# c" = none := by
  refine ⟨(claim_C10 "d1 f1\n# c\n\nd2  *f 2\nsingle").1, ⟨by decide, ?_⟩, ?_⟩
  · have hl := (claim_C10 "d1 f1\n# c\n\nd2  *f 2\nsingle").2.2 "d2  *f 2" "d2" "*f 2"
      (by decide) (by decide) (by decide)
    exact hl.trans (by decide)
  · exact (claim_C10 "d1 f1\n# c\n\nd2  *f 2\nsingle").2.1 "# c" (.inr (.inl (by decide)))
